import Mathlib

/-!
Shallow embedding of the core of the cloud-debug-python agent: the bytecode
manipulator, the bytecode breakpoint registry, the immutability tracer, the
leaky bucket and the conditional breakpoint, together with theorems settling
the specification claims against this code.

Conventions of the embedding:
* Byte sequences (bytecode, line tables) are lists of naturals; each entry
  models one uint8 of the C++ vector, so is assumed to lie below 256 where
  byte extraction matters.
* The bytecode manipulator and the immutability tracer are embedded for the
  Python 3 build of the extension (PY_MAJOR_VERSION >= 3 and
  0x03070000 <= PY_VERSION_HEX < 0x03080000, that is CPython 3.7): every
  instruction occupies 2, 4, 6 or 8 bytes, wider arguments being expressed
  with chained EXTENDED_ARG prefixes.  The file bytecode_breakpoint.cc is
  written against CPython 2.7 and is embedded with that encoding.
* While loops whose variant is not structural are written with an explicit
  fuel argument; the canonical wrapper instantiates the fuel with a bound
  that the loop variant of the C++ code never exceeds (for the branch
  update cascade the fuel is the literal iteration bound of the source).
-/

namespace Cdbg

/-- Value of a C++ static_cast<int32> applied to an unsigned accumulator. -/
def toInt32 (n : Nat) : Int :=
  if n % 4294967296 < 2147483648 then ((n % 4294967296 : Nat) : Int)
  else ((n % 4294967296 : Nat) : Int) - 4294967296

/-- Value of a C++ static_cast<int16> applied to an unsigned accumulator. -/
def toInt16 (n : Nat) : Int :=
  if n % 65536 < 32768 then ((n % 65536 : Nat) : Int)
  else ((n % 65536 : Nat) : Int) - 65536

/-- Value of a C++ static_cast<uint32> applied to a signed integer. -/
def toUInt32c (i : Int) : Nat := (i % 4294967296).toNat

/-- Value of a C++ static_cast<uint16> applied to a signed integer. -/
def toUInt16c (i : Int) : Nat := (i % 65536).toNat

/-- Low byte of a value, as the C++ static_cast<uint8>. -/
def toUInt8c (n : Nat) : Nat := n % 256

/-- Overwrites bytes of a buffer starting at a given index, as a sequence of
C++ iterator writes does.  The caller guarantees the buffer is large
enough. -/
def overwriteAt (buf : List Nat) (pos : Nat) (bytes : List Nat) : List Nat :=
  buf.take pos ++ bytes ++ buf.drop (pos + bytes.length)

/-! Opcode numbers of CPython 3.7 (Include/opcode.h), used by
bytecode_manipulator.cc and immutability_tracer.cc in the Python 3 build. -/

namespace Py3

def POP_TOP : Nat := 1
def ROT_TWO : Nat := 2
def ROT_THREE : Nat := 3
def DUP_TOP : Nat := 4
def DUP_TOP_TWO : Nat := 5
def NOP : Nat := 9
def UNARY_POSITIVE : Nat := 10
def UNARY_NEGATIVE : Nat := 11
def UNARY_NOT : Nat := 12
def UNARY_INVERT : Nat := 15
def BINARY_MATRIX_MULTIPLY : Nat := 16
def INPLACE_MATRIX_MULTIPLY : Nat := 17
def BINARY_POWER : Nat := 19
def BINARY_MULTIPLY : Nat := 20
def BINARY_MODULO : Nat := 22
def BINARY_ADD : Nat := 23
def BINARY_SUBTRACT : Nat := 24
def BINARY_SUBSCR : Nat := 25
def BINARY_FLOOR_DIVIDE : Nat := 26
def BINARY_TRUE_DIVIDE : Nat := 27
def INPLACE_FLOOR_DIVIDE : Nat := 28
def INPLACE_TRUE_DIVIDE : Nat := 29
def GET_AITER : Nat := 50
def GET_ANEXT : Nat := 51
def BEFORE_ASYNC_WITH : Nat := 52
def INPLACE_ADD : Nat := 55
def INPLACE_SUBTRACT : Nat := 56
def INPLACE_MULTIPLY : Nat := 57
def INPLACE_MODULO : Nat := 59
def STORE_SUBSCR : Nat := 60
def DELETE_SUBSCR : Nat := 61
def BINARY_LSHIFT : Nat := 62
def BINARY_RSHIFT : Nat := 63
def BINARY_AND : Nat := 64
def BINARY_XOR : Nat := 65
def BINARY_OR : Nat := 66
def INPLACE_POWER : Nat := 67
def GET_ITER : Nat := 68
def GET_YIELD_FROM_ITER : Nat := 69
def PRINT_EXPR : Nat := 70
def LOAD_BUILD_CLASS : Nat := 71
def YIELD_FROM : Nat := 72
def GET_AWAITABLE : Nat := 73
def INPLACE_LSHIFT : Nat := 75
def INPLACE_RSHIFT : Nat := 76
def INPLACE_AND : Nat := 77
def INPLACE_XOR : Nat := 78
def INPLACE_OR : Nat := 79
def BREAK_LOOP : Nat := 80
def WITH_CLEANUP_START : Nat := 81
def WITH_CLEANUP_FINISH : Nat := 82
def RETURN_VALUE : Nat := 83
def IMPORT_STAR : Nat := 84
def SETUP_ANNOTATIONS : Nat := 85
def YIELD_VALUE : Nat := 86
def POP_BLOCK : Nat := 87
def END_FINALLY : Nat := 88
def POP_EXCEPT : Nat := 89
def STORE_NAME : Nat := 90
def DELETE_NAME : Nat := 91
def UNPACK_SEQUENCE : Nat := 92
def FOR_ITER : Nat := 93
def UNPACK_EX : Nat := 94
def STORE_ATTR : Nat := 95
def DELETE_ATTR : Nat := 96
def STORE_GLOBAL : Nat := 97
def DELETE_GLOBAL : Nat := 98
def LOAD_CONST : Nat := 100
def LOAD_NAME : Nat := 101
def BUILD_TUPLE : Nat := 102
def BUILD_LIST : Nat := 103
def BUILD_SET : Nat := 104
def BUILD_MAP : Nat := 105
def LOAD_ATTR : Nat := 106
def COMPARE_OP : Nat := 107
def IMPORT_NAME : Nat := 108
def IMPORT_FROM : Nat := 109
def JUMP_FORWARD : Nat := 110
def JUMP_IF_FALSE_OR_POP : Nat := 111
def JUMP_IF_TRUE_OR_POP : Nat := 112
def JUMP_ABSOLUTE : Nat := 113
def POP_JUMP_IF_FALSE : Nat := 114
def POP_JUMP_IF_TRUE : Nat := 115
def LOAD_GLOBAL : Nat := 116
def CONTINUE_LOOP : Nat := 119
def SETUP_LOOP : Nat := 120
def SETUP_EXCEPT : Nat := 121
def SETUP_FINALLY : Nat := 122
def LOAD_FAST : Nat := 124
def STORE_FAST : Nat := 125
def DELETE_FAST : Nat := 126
def RAISE_VARARGS : Nat := 130
def CALL_FUNCTION : Nat := 131
def MAKE_FUNCTION : Nat := 132
def BUILD_SLICE : Nat := 133
def LOAD_CLOSURE : Nat := 135
def LOAD_DEREF : Nat := 136
def STORE_DEREF : Nat := 137
def DELETE_DEREF : Nat := 138
def CALL_FUNCTION_KW : Nat := 141
def CALL_FUNCTION_EX : Nat := 142
def SETUP_WITH : Nat := 143
def EXTENDED_ARG : Nat := 144
def LIST_APPEND : Nat := 145
def SET_ADD : Nat := 146
def MAP_ADD : Nat := 147
def LOAD_CLASSDEREF : Nat := 148
def BUILD_LIST_UNPACK : Nat := 149
def BUILD_MAP_UNPACK : Nat := 150
def BUILD_MAP_UNPACK_WITH_CALL : Nat := 151
def BUILD_TUPLE_UNPACK : Nat := 152
def BUILD_SET_UNPACK : Nat := 153
def SETUP_ASYNC_WITH : Nat := 154
def FORMAT_VALUE : Nat := 155
def BUILD_CONST_KEY_MAP : Nat := 156
def BUILD_STRING : Nat := 157
def BUILD_TUPLE_UNPACK_WITH_CALL : Nat := 158
def LOAD_METHOD : Nat := 160
def CALL_METHOD : Nat := 161

end Py3

/-! Embedding of bytecode_manipulator.cc (Python 3 build). -/

namespace Manip

open Py3

/-- Classification of Python opcodes (enum PythonOpcodeType). -/
inductive PythonOpcodeType where
  | SEQUENTIAL_OPCODE
  | BRANCH_DELTA_OPCODE
  | BRANCH_ABSOLUTE_OPCODE
  | YIELD_OPCODE
deriving DecidableEq, Repr

open PythonOpcodeType

/-- Single Python instruction (struct PythonInstruction): opcode, full
argument and total encoded size including EXTENDED_ARG prefixes. -/
structure PythonInstruction where
  opcode : Nat
  argument : Nat
  size : Nat
deriving DecidableEq, Repr

/-- Creates an instruction with no argument (PythonInstructionNoArg);
size 2 in the Python 3 encoding. -/
def PythonInstructionNoArg (opcode : Nat) : PythonInstruction :=
  { opcode := opcode, argument := 0, size := 2 }

/-- Creates an instruction with an argument (PythonInstructionArg); the size
grows with the argument width in the Python 3 encoding. -/
def PythonInstructionArg (opcode : Nat) (argument : Nat) : PythonInstruction :=
  { opcode := opcode, argument := argument,
    size :=
      if argument ≤ 0xFF then 2
      else if argument ≤ 0xFFFF then 4
      else if argument ≤ 0xFFFFFF then 6
      else 8 }

/-- Total size of a set of instructions (GetInstructionsSize). -/
def GetInstructionsSize (instructions : List PythonInstruction) : Nat :=
  instructions.foldl (fun acc i => acc + i.size) 0

/-- Classification of an opcode (GetOpcodeType), Python 3.7 branch. -/
def GetOpcodeType (opcode : Nat) : PythonOpcodeType :=
  if opcode = YIELD_VALUE ∨ opcode = YIELD_FROM then
    YIELD_OPCODE
  else if opcode = FOR_ITER ∨ opcode = JUMP_FORWARD ∨ opcode = SETUP_LOOP ∨
      opcode = SETUP_EXCEPT ∨ opcode = SETUP_FINALLY ∨ opcode = SETUP_WITH then
    BRANCH_DELTA_OPCODE
  else if opcode = JUMP_IF_FALSE_OR_POP ∨ opcode = JUMP_IF_TRUE_OR_POP ∨
      opcode = JUMP_ABSOLUTE ∨ opcode = POP_JUMP_IF_FALSE ∨
      opcode = POP_JUMP_IF_TRUE ∨ opcode = CONTINUE_LOOP then
    BRANCH_ABSOLUTE_OPCODE
  else
    SEQUENTIAL_OPCODE

/-- Target offset of a branch instruction located at the given offset
(GetBranchTarget).  The C++ adds the int offset and size to the uint32
argument, so the sum is computed in uint32 (wrapping modulo 2^32) and the
result is converted back to int; likewise the absolute case converts the
uint32 argument to int.  Returns -1 for non-branch opcodes. -/
def GetBranchTarget (offset : Nat) (instruction : PythonInstruction) : Int :=
  match GetOpcodeType instruction.opcode with
  | BRANCH_DELTA_OPCODE =>
      toInt32 (offset + instruction.size + instruction.argument)
  | BRANCH_ABSOLUTE_OPCODE => toInt32 instruction.argument
  | _ => -1

/-- Worker of ReadInstruction: consumes EXTENDED_ARG prefixes, accumulating
the argument and the size; none models the kInvalidInstruction result on
buffer underflow. -/
def ReadInstructionAux : List Nat → Nat → Nat → Option PythonInstruction
  | b0 :: b1 :: rest, argument, size =>
      if b0 = EXTENDED_ARG then
        ReadInstructionAux rest ((argument * 256 + b1) % 4294967296) (size + 2)
      else
        some { opcode := b0, argument := (argument * 256 + b1) % 4294967296,
               size := size + 2 }
  | _, _, _ => none

/-- Reads the instruction at the given offset (ReadInstruction, Python 3
branch); none models kInvalidInstruction. -/
def ReadInstruction (bytecode : List Nat) (pos : Nat) : Option PythonInstruction :=
  ReadInstructionAux (bytecode.drop pos) 0 0

/-- Bytes emitted by WriteInstruction (Python 3 branch): the instruction is
written backwards as EXTENDED_ARG prefixes followed by the opcode, each unit
carrying one argument byte from most to least significant. -/
def WriteInstructionBytes (instruction : PythonInstruction) : List Nat :=
  ((List.range (instruction.size / 2)).map (fun j =>
    [ if j + 1 = instruction.size / 2 then instruction.opcode else EXTENDED_ARG,
      instruction.argument / 256 ^ (instruction.size / 2 - 1 - j) % 256 ])).flatten

/-- Bytes emitted by WriteInstructions for a set of instructions written
back to back. -/
def WriteInstructionsBytes (instructions : List PythonInstruction) : List Nat :=
  (instructions.map WriteInstructionBytes).flatten

/-- Instructions invoking the method stored at the given index of the
constants tuple (BuildMethodCall). -/
def BuildMethodCall (const_index : Nat) : List PythonInstruction :=
  [PythonInstructionArg LOAD_CONST const_index,
   PythonInstructionArg CALL_FUNCTION 0,
   PythonInstructionNoArg POP_TOP]

/-- Patch strategies of the manipulator. -/
inductive Strategy where
  | STRATEGY_INSERT
  | STRATEGY_APPEND
  | STRATEGY_FAIL
deriving DecidableEq, Repr

open Strategy

/-- Mutable data of the manipulator: bytecode and line table. -/
structure Data where
  bytecode : List Nat
  lnotab : List Nat
deriving DecidableEq, Repr

/-- Scan loop of the BytecodeManipulator constructor: default strategy
STRATEGY_INSERT, STRATEGY_FAIL on an unreadable instruction, STRATEGY_APPEND
as soon as a yield opcode is decoded.  The fuel bounds the loop; every
iteration advances the position by at least 2 bytes. -/
def strategyScan (bytecode : List Nat) : Nat → Nat → Strategy
  | 0, _ => STRATEGY_INSERT
  | fuel + 1, pos =>
      if pos < bytecode.length then
        match ReadInstruction bytecode pos with
        | none => STRATEGY_FAIL
        | some instruction =>
            if GetOpcodeType instruction.opcode = YIELD_OPCODE then
              STRATEGY_APPEND
            else
              strategyScan bytecode fuel (pos + instruction.size)
      else STRATEGY_INSERT

/-- State of a BytecodeManipulator. -/
structure BytecodeManipulator where
  has_lnotab : Bool
  data : Data
  strategy : Strategy
deriving DecidableEq, Repr

/-- Constructor BytecodeManipulator::BytecodeManipulator: stores the data
and selects the strategy by scanning the bytecode. -/
def mkBytecodeManipulator (bytecode : List Nat) (has_lnotab : Bool)
    (lnotab : List Nat) : BytecodeManipulator :=
  { has_lnotab := has_lnotab,
    data := { bytecode := bytecode, lnotab := lnotab },
    strategy := strategyScan bytecode (bytecode.length + 1) 0 }

/-- Decodes the instruction sequence from the given position: returns the
decoded prefix together with true when the whole bytecode was decoded and
false when an undecodable instruction was reached.  Same fuel structure as
the constructor scan. -/
def decodeList (bytecode : List Nat) : Nat → Nat → List PythonInstruction × Bool
  | 0, _ => ([], true)
  | fuel + 1, pos =>
      if pos < bytecode.length then
        match ReadInstruction bytecode pos with
        | none => ([], false)
        | some instruction =>
            let r := decodeList bytecode fuel (pos + instruction.size)
            (instruction :: r.1, r.2)
      else ([], true)

/-- Strategy selection rephrased on the decoded prefix: append when a yield
opcode is decoded before any decode error, fail when a decode error is
reached before any yield, insert when the whole bytecode decodes with no
yield. -/
def strategySpec (bytecode : List Nat) : Strategy :=
  let r := decodeList bytecode (bytecode.length + 1) 0
  if r.1.any (fun i => GetOpcodeType i.opcode = YIELD_OPCODE) then STRATEGY_APPEND
  else if r.2 then STRATEGY_INSERT
  else STRATEGY_FAIL

theorem strategyScan_eq_spec (bytecode : List Nat) :
    ∀ fuel pos, strategyScan bytecode fuel pos =
      (let r := decodeList bytecode fuel pos
       if r.1.any (fun i => GetOpcodeType i.opcode = YIELD_OPCODE) then
         STRATEGY_APPEND
       else if r.2 then STRATEGY_INSERT
       else STRATEGY_FAIL) := by
  intro fuel
  induction fuel with
  | zero => intro pos; simp [strategyScan, decodeList]
  | succ n ih =>
      intro pos
      simp only [strategyScan, decodeList]
      by_cases h : pos < bytecode.length
      · simp only [h, if_true]
        cases hr : ReadInstruction bytecode pos with
        | none => simp
        | some instruction =>
            by_cases hy : GetOpcodeType instruction.opcode = YIELD_OPCODE
            · simp [hy]
            · simp only [hy, if_false, ih (pos + instruction.size)]
              simp [List.any_cons, hy]
      · simp [h]

/-! Embedding of InsertAndUpdateBranchInstructions (Python 3 branch). -/

/-- Branch instruction of the original bytecode that may need its offset
fixed or be upgraded to use EXTENDED_ARG (struct UpdatedInstruction). -/
structure UpdatedInstruction where
  instruction : PythonInstruction
  original_size : Nat
  current_offset : Nat
deriving DecidableEq, Repr

/-- Space that needs to be reserved for an insertion operation
(struct Insertion). -/
structure Insertion where
  size : Nat
  current_offset : Nat
deriving DecidableEq, Repr

/-- Max number of outer loop iterations to do before failing in
InsertAndUpdateBranchInstructions. -/
def kMaxInsertionIterations : Nat := 10

/-- Body of one outer iteration of InsertAndUpdateBranchInstructions:
shifts the pending insertions at or after the popped insertion, then walks
the branch instructions updating offsets and arguments, pushing a new
insertion whenever an instruction grows. -/
def insertionStep (isFirst : Bool) (insertion : Insertion)
    (pending : List Insertion) (instructions : List UpdatedInstruction) :
    List Insertion × List UpdatedInstruction :=
  let pending0 := pending.map (fun p =>
    if p.current_offset ≥ insertion.current_offset then
      { p with current_offset := p.current_offset + insertion.size }
    else p)
  instructions.foldl (fun acc it =>
    let instruction := it.instruction
    let arg : Int := toInt32 instruction.argument
    let opcode_type := GetOpcodeType instruction.opcode
    let need_to_update : Bool :=
      if opcode_type = BRANCH_DELTA_OPCODE then
        let inst_size := max instruction.size it.original_size
        let target : Int := (it.current_offset : Int) + inst_size + arg
        decide ((it.current_offset : Int) < insertion.current_offset ∧
          (insertion.current_offset : Int) < target)
      else if opcode_type = BRANCH_ABSOLUTE_OPCODE then
        decide ((insertion.current_offset : Int) < arg)
      else false
    let offset_diff : Int :=
      (it.current_offset : Int) - insertion.current_offset
    let new_offset :=
      if (isFirst ∧ 0 ≤ offset_diff) ∨ 0 < offset_diff then
        it.current_offset + insertion.size
      else it.current_offset
    if need_to_update then
      let new_instruction :=
        PythonInstructionArg instruction.opcode (toUInt32c (arg + insertion.size))
      let size_diff : Int := (new_instruction.size : Int) - instruction.size
      let pushed :=
        if 0 < size_diff then
          acc.1 ++ [{ size := size_diff.toNat, current_offset := new_offset }]
        else acc.1
      (pushed, acc.2 ++ [{ instruction := new_instruction,
                           original_size := it.original_size,
                           current_offset := new_offset }])
    else
      (acc.1, acc.2 ++ [{ it with current_offset := new_offset }]))
    (pending0, ([] : List UpdatedInstruction))

/-- Outer loop of InsertAndUpdateBranchInstructions: repeatedly pops the
last pending insertion and processes it, for at most `fuel` iterations.
The flag records whether the current iteration is the first one
(`iterations == 0` in the source). -/
def insertionLoop :
    Nat → Bool → List Insertion → List UpdatedInstruction →
      List Insertion × List UpdatedInstruction
  | 0, _, insertions, instructions => (insertions, instructions)
  | fuel + 1, isFirst, insertions, instructions =>
      match insertions.getLast? with
      | none => ([], instructions)
      | some insertion =>
          let r := insertionStep isFirst insertion insertions.dropLast instructions
          insertionLoop fuel false r.1 r.2

/-- Reserves space for instructions to be inserted into the bytecode and
calculates the new offsets and arguments of branch instructions
(InsertAndUpdateBranchInstructions); none when too many iterations were
needed, in which case the source returns false. -/
def InsertAndUpdateBranchInstructions (insertion : Insertion)
    (instructions : List UpdatedInstruction) : Option (List UpdatedInstruction) :=
  let r := insertionLoop kMaxInsertionIterations true [insertion] instructions
  if r.1 = [] then some r.2 else none

theorem insertionLoop_nil (fuel : Nat) (isFirst : Bool)
    (instructions : List UpdatedInstruction) :
    insertionLoop fuel isFirst [] instructions = ([], instructions) := by
  cases fuel <;> simp [insertionLoop]

theorem insertionLoop_fuel_add :
    ∀ (fuel extra : Nat) (isFirst : Bool) (pending : List Insertion)
      (instructions : List UpdatedInstruction),
      (insertionLoop fuel isFirst pending instructions).1 = [] →
      insertionLoop (fuel + extra) isFirst pending instructions =
        insertionLoop fuel isFirst pending instructions := by
  intro fuel
  induction fuel with
  | zero =>
      intro extra isFirst pending instructions h
      simp only [insertionLoop] at h ⊢
      subst h
      simp [insertionLoop_nil]
  | succ n ih =>
      intro extra isFirst pending instructions h
      have hadd : n + 1 + extra = (n + extra) + 1 := by omega
      rw [hadd]
      simp only [insertionLoop] at h ⊢
      cases hl : pending.getLast? with
      | none => simp [hl]
      | some insertion =>
          simp only [hl] at h ⊢
          exact ih extra false _ _ h

/-- C4 (counterexample): on the bytecode [YIELD_VALUE 0, EXTENDED_ARG-byte]
the instruction sequence cannot be fully decoded (the trailing byte is a
truncated instruction), yet the constructor selects STRATEGY_APPEND, not
STRATEGY_FAIL, because the scan stops at the yield it decodes first.  The
fuel 4 is the canonical bound (bytecode length + 1). -/
theorem C4_counterexample :
    ¬ ((decodeList [86, 0, 144] 4 0).2 = false →
        (mkBytecodeManipulator [86, 0, 144] true []).strategy =
          Strategy.STRATEGY_FAIL) := by
  decide

/-- C4 (amended): the constructor selects the strategy as a function of the
bytecode alone, by scanning the decoded instruction prefix: STRATEGY_APPEND
when a yield opcode is decoded before any decode error, STRATEGY_FAIL when a
decode error is reached before any yield, and STRATEGY_INSERT when the whole
bytecode decodes with no yield opcode. -/
theorem C4_strategy_selection (bytecode : List Nat) (has_lnotab : Bool)
    (lnotab : List Nat) :
    (mkBytecodeManipulator bytecode has_lnotab lnotab).strategy =
      strategySpec bytecode := by
  simpa [mkBytecodeManipulator, strategySpec] using
    strategyScan_eq_spec bytecode (bytecode.length + 1) 0

/-- C5: the branch-widening cascade runs for at most the fixed bound
kMaxInsertionIterations = 10 of outer iterations, and the rewrite succeeds
exactly when the pending insertion stack empties within that bound; if
insertion records remain when the bound is reached, the function reports
failure (none, which makes InsertMethodCall abort the rewrite). -/
theorem C5_cascade_bound (insertion : Insertion)
    (instructions : List UpdatedInstruction) :
    (InsertAndUpdateBranchInstructions insertion instructions).isSome ↔
      ∃ n, n ≤ kMaxInsertionIterations ∧
        (insertionLoop n true [insertion] instructions).1 = [] := by
  constructor
  · intro h
    refine ⟨kMaxInsertionIterations, le_refl _, ?_⟩
    by_contra hne
    simp only [InsertAndUpdateBranchInstructions, hne, if_false,
      Option.isSome_none] at h
    exact Bool.false_ne_true h
  · rintro ⟨n, hn, hempty⟩
    have h10 : kMaxInsertionIterations = n + (kMaxInsertionIterations - n) := by
      omega
    have := insertionLoop_fuel_add n (kMaxInsertionIterations - n) true
      [insertion] instructions hempty
    simp only [InsertAndUpdateBranchInstructions]
    rw [h10, this, hempty]
    simp

/-! Embedding of InsertAndUpdateLnotab (Python 3 branch).  The line table is
the raw byte list of co_lnotab; the function walks it in
(offset_delta, line_delta) byte pairs. -/

/-- Inner while loop of InsertAndUpdateLnotab: splits a widened offset delta
into 0xFF-capped continuation pairs followed by the final pair carrying the
line delta.  The canonical fuel is the remaining size itself, which the
variant (remaining_size strictly decreases by 0xFF) never exceeds. -/
def chunkLoop : Nat → Nat → Nat → List Nat
  | 0, remaining_size, remaining_lines => [remaining_size, remaining_lines]
  | fuel + 1, remaining_size, remaining_lines =>
      if remaining_size > 0xFF then
        255 :: 0 :: chunkLoop fuel (remaining_size - 0xFF) remaining_lines
      else [remaining_size, remaining_lines]

/-- Walk of InsertAndUpdateLnotab: accumulates offset deltas until the entry
whose accumulated offset passes the insertion offset, then replaces that
entry by its widened, 0xFF-capped form.  A table exhausted before that point
is left unchanged, as the source loop just runs off the end. -/
def lnotabWalk (offset size : Nat) : List Nat → Nat → List Nat
  | d :: l :: rest, current_offset =>
      if current_offset + d > offset then
        chunkLoop (d + size) (d + size) l ++ rest
      else d :: l :: lnotabWalk offset size rest (current_offset + d)
  | other, _ => other

/-- Updates the line number table for an insertion in the bytecode
(InsertAndUpdateLnotab, Python 3 branch). -/
def InsertAndUpdateLnotab (offset size : Nat) (lnotab : List Nat) : List Nat :=
  lnotabWalk offset size lnotab 0

end Manip

/-! Embedding of CodeObjectLinesEnumerator (python_util.cc), the decoder of
co_lnotab line tables used by the registry, the tracer and the spec of the
line-table claims. -/

namespace PyUtil

/-- Condition under which a consumed (offset_delta, line_delta) pair stops
the inner loop of CodeObjectLinesEnumerator::Next and yields a boundary;
the pairs (0xFF, 0) and (0, 0xFF) continue on the following pair. -/
def stopPair (d l : Nat) : Bool :=
  (!(d == 255 && l == 0)) && (!(d == 0 && l == 255))

/-- One call of CodeObjectLinesEnumerator::Next: consumes pairs, adding the
deltas to the (offset, line) state, until a stop pair yields; none models
Next returning false (table exhausted, possibly mid-continuation). -/
def nextStep : Nat × Nat → List Nat → Option ((Nat × Nat) × List Nat)
  | state, d :: l :: rest =>
      let s := (state.1 + d, state.2 + l)
      if stopPair d l then some (s, rest) else nextStep s rest
  | _, _ => none

/-- States yielded by successive successful calls to Next.  The fuel bounds
the number of calls; every call consumes at least one pair. -/
def decodeFrom : Nat → Nat × Nat → List Nat → List (Nat × Nat)
  | 0, _, _ => []
  | fuel + 1, s, bytes =>
      match nextStep s bytes with
      | none => []
      | some (s2, rest) => s2 :: decodeFrom fuel s2 rest

/-- State of the enumerator after consuming every entry without a stop, as
happens when Next runs off a fully-continuation table. -/
def consumeAll : Nat × Nat → List Nat → Nat × Nat
  | s, d :: l :: rest => consumeAll (s.1 + d, s.2 + l) rest
  | s, _ => s

/-- Sequence of (offset, line) states observable on the enumerator: the
state visible after Initialize followed by the states after each successful
Next.  Initialize skips one Next when the table starts with offset delta 0,
so that the first visible line is the one at offset 0. -/
def decodeVisible (firstlineno : Nat) (lnotab : List Nat) : List (Nat × Nat) :=
  match lnotab with
  | d :: l :: rest =>
      if d = 0 then
        match nextStep (0, firstlineno) (d :: l :: rest) with
        | some (s1, r2) => s1 :: decodeFrom (r2.length + 1) s1 r2
        | none => [consumeAll (0, firstlineno) (d :: l :: rest)]
      else
        (0, firstlineno) ::
          decodeFrom ((d :: l :: rest).length + 1) (0, firstlineno) (d :: l :: rest)
  | _ => (0, firstlineno) :: decodeFrom (lnotab.length + 1) (0, firstlineno) lnotab

/-- Pairs of a line table byte list, as the enumerator reads them. -/
def toPairs : List Nat → List (Nat × Nat)
  | d :: l :: rest => (d, l) :: toPairs rest
  | _ => []

theorem nextStep_length :
    ∀ (bytes : List Nat) (s s2 : Nat × Nat) (rest : List Nat),
      nextStep s bytes = some (s2, rest) → rest.length + 2 ≤ bytes.length := by
  intro bytes
  induction bytes using toPairs.induct with
  | case1 d l r ih =>
      intro s s2 rest h
      simp only [nextStep] at h
      by_cases hs : stopPair d l
      · simp only [hs, if_true, Option.some.injEq] at h
        obtain ⟨-, rfl⟩ := Prod.mk.injEq .. ▸ h
        simp
      · simp only [hs, if_false] at h
        have := ih _ _ _ h
        simp only [List.length_cons]
        omega
  | case2 bytes h1 =>
      intro s s2 rest h
      have : nextStep s bytes = none := by
        cases bytes with
        | nil => simp [nextStep]
        | cons a t =>
            cases t with
            | nil => simp [nextStep]
            | cons b u => exact absurd rfl (h1 a b u)
      rw [this] at h
      exact absurd h (by simp)

theorem nextStep_fst_le :
    ∀ (bytes : List Nat) (s s2 : Nat × Nat) (rest : List Nat),
      nextStep s bytes = some (s2, rest) → s.1 ≤ s2.1 := by
  intro bytes
  induction bytes using toPairs.induct with
  | case1 d l r ih =>
      intro s s2 rest h
      simp only [nextStep] at h
      by_cases hs : stopPair d l
      · simp only [hs, if_true, Option.some.injEq, Prod.mk.injEq] at h
        obtain ⟨h2, -⟩ := h
        have h3 := congrArg Prod.fst h2
        simp only at h3
        omega
      · simp only [hs, if_false] at h
        have := ih _ _ _ h
        simp only at this
        omega
  | case2 bytes h1 =>
      intro s s2 rest h
      have : nextStep s bytes = none := by
        cases bytes with
        | nil => simp [nextStep]
        | cons a t =>
            cases t with
            | nil => simp [nextStep]
            | cons b u => exact absurd rfl (h1 a b u)
      rw [this] at h
      exact absurd h (by simp)

theorem decodeFrom_congr :
    ∀ (f1 f2 : Nat) (s : Nat × Nat) (bytes : List Nat),
      bytes.length < f1 → bytes.length < f2 →
      decodeFrom f1 s bytes = decodeFrom f2 s bytes := by
  intro f1
  induction f1 with
  | zero => intro f2 s bytes h1; omega
  | succ n ih =>
      intro f2 s bytes h1 h2
      cases f2 with
      | zero => omega
      | succ m =>
          simp only [decodeFrom]
          cases hns : nextStep s bytes with
          | none => rfl
          | some p =>
              obtain ⟨s2, rest⟩ := p
              have hlen := nextStep_length bytes s s2 rest hns
              exact congrArg (List.cons _) (ih m s2 rest (by omega) (by omega))

theorem nextStep_shift :
    ∀ (bytes : List Nat) (s : Nat × Nat) (k : Nat),
      nextStep (s.1 + k, s.2) bytes =
        (nextStep s bytes).map (fun p => ((p.1.1 + k, p.1.2), p.2)) := by
  intro bytes
  induction bytes using toPairs.induct with
  | case1 d l r ih =>
      intro s k
      simp only [nextStep]
      by_cases hs : stopPair d l
      · simp only [hs, if_true]
        have : s.1 + k + d = s.1 + d + k := by omega
        rw [this]
        rfl
      · simp only [hs, if_false]
        have : s.1 + k + d = s.1 + d + k := by omega
        rw [this]
        exact ih (s.1 + d, s.2 + l) k
  | case2 bytes h1 =>
      intro s k
      have hgen : ∀ t : Nat × Nat, nextStep t bytes = none := by
        intro t
        cases bytes with
        | nil => simp [nextStep]
        | cons a u =>
            cases u with
            | nil => simp [nextStep]
            | cons b v => exact absurd rfl (h1 a b v)
      rw [hgen, hgen]
      rfl

theorem decodeFrom_shift :
    ∀ (fuel : Nat) (s : Nat × Nat) (k : Nat) (bytes : List Nat),
      decodeFrom fuel (s.1 + k, s.2) bytes =
        (decodeFrom fuel s bytes).map (fun t => (t.1 + k, t.2)) := by
  intro fuel
  induction fuel with
  | zero => intro s k bytes; rfl
  | succ n ih =>
      intro s k bytes
      simp only [decodeFrom, nextStep_shift bytes s k]
      cases hns : nextStep s bytes with
      | none => rfl
      | some p =>
          obtain ⟨s2, rest⟩ := p
          exact congrArg (List.cons _) (ih s2 k rest)

theorem decodeFrom_cons (fuel : Nat) {s s2 : Nat × Nat} {bytes rest : List Nat}
    (h : nextStep s bytes = some (s2, rest)) :
    decodeFrom (fuel + 1) s bytes = s2 :: decodeFrom fuel s2 rest := by
  simp only [decodeFrom, h]

theorem decodeFrom_fst_le :
    ∀ (fuel : Nat) (s : Nat × Nat) (bytes : List Nat) (t : Nat × Nat),
      t ∈ decodeFrom fuel s bytes → s.1 ≤ t.1 := by
  intro fuel
  induction fuel with
  | zero => intro s bytes t h; simp [decodeFrom] at h
  | succ n ih =>
      intro s bytes t h
      simp only [decodeFrom] at h
      cases hns : nextStep s bytes with
      | none => rw [hns] at h; simp at h
      | some p =>
          obtain ⟨s2, rest⟩ := p
          rw [hns] at h
          have hle := nextStep_fst_le bytes s s2 rest hns
          rcases List.mem_cons.mp h with rfl | hmem
          · exact hle
          · exact le_trans hle (ih s2 rest t hmem)

end PyUtil

/-! Settling claim C8: decoding after InsertAndUpdateLnotab. -/

namespace Manip

open Py3 PythonOpcodeType Strategy PyUtil

/-- Shift that the amended C8 claim applies to a decoded (offset, line)
boundary: boundaries strictly after the insertion offset move by the gap
size, boundaries at or before it stay. -/
def lnotabShift (offset size : Nat) (s : Nat × Nat) : Nat × Nat :=
  if offset < s.1 then (s.1 + size, s.2) else s

theorem chunkLoop_shape (fuel rs l : Nat) (h : 1 ≤ rs) :
    ∃ h1 h2 t, chunkLoop fuel rs l = h1 :: h2 :: t ∧ 1 ≤ h1 := by
  cases fuel with
  | zero => exact ⟨rs, l, [], rfl, h⟩
  | succ n =>
      by_cases hbig : rs > 0xFF
      · exact ⟨255, 0, chunkLoop n (rs - 0xFF) l, by simp [chunkLoop, hbig],
          by omega⟩
      · exact ⟨rs, l, [], by simp [chunkLoop, hbig], h⟩

theorem nextStep_chunkLoop :
    ∀ (fuel rs l : Nat) (rest : List Nat) (s : Nat × Nat),
      1 ≤ rs → rs ≤ fuel → ¬(rs % 255 = 0 ∧ l = 0) →
      nextStep s (chunkLoop fuel rs l ++ rest) =
        some ((s.1 + rs, s.2 + l), rest) := by
  intro fuel
  induction fuel with
  | zero => intro rs l rest s h1 h2 h3; omega
  | succ n ih =>
      intro rs l rest s h1 h2 h3
      simp only [chunkLoop]
      by_cases hbig : rs > 0xFF
      · have hstop : stopPair 255 0 = false := by decide
        simp only [hbig, if_true, List.cons_append, nextStep, hstop,
          Bool.false_eq_true, if_false]
        have hrec := ih (rs - 0xFF) l rest (s.1 + 255, s.2 + 0)
          (by omega) (by omega) (by omega)
        rw [hrec]
        have e1 : s.1 + 255 + (rs - 0xFF) = s.1 + rs := by omega
        have e2 : s.2 + 0 + l = s.2 + l := by omega
        rw [e1, e2]
      · have hstop : stopPair rs l = true := by
          simp only [stopPair, Bool.and_eq_true, Bool.not_eq_true',
            Bool.and_eq_false_iff, beq_eq_false_iff_ne, ne_eq, beq_iff_eq]
          omega
        simp only [hbig, if_false, List.cons_append, nextStep, hstop, if_true]
        rfl

theorem decode_lnotabWalk :
    ∀ (bytes : List Nat) (offset size c ln : Nat),
      (∀ p ∈ toPairs bytes, stopPair p.1 p.2 = true) →
      (∀ p ∈ toPairs bytes, p.2 = 0 → (p.1 + size) % 255 ≠ 0) →
      c ≤ offset →
      decodeFrom ((lnotabWalk offset size bytes c).length + 1) (c, ln)
          (lnotabWalk offset size bytes c) =
        (decodeFrom (bytes.length + 1) (c, ln) bytes).map
          (lnotabShift offset size) := by
  intro bytes
  induction bytes using PyUtil.toPairs.induct with
  | case1 d l rest ih =>
      intro offset size c ln hstop hchunk hc
      have hsd : stopPair d l = true := hstop (d, l) (by simp [toPairs])
      have hstop2 : ∀ p ∈ toPairs rest, stopPair p.1 p.2 = true := by
        intro p hp; exact hstop p (by simp [toPairs, hp])
      have hchunk2 : ∀ p ∈ toPairs rest, p.2 = 0 → (p.1 + size) % 255 ≠ 0 := by
        intro p hp; exact hchunk p (by simp [toPairs, hp])
      by_cases hco : c + d > offset
      · -- the modified entry: replaced by its widened chunked form
        have hd1 : 1 ≤ d := by omega
        have hrs : 1 ≤ d + size := by omega
        have hnosw : ¬((d + size) % 255 = 0 ∧ l = 0) := by
          rintro ⟨hmod, hl0⟩
          exact hchunk (d, l) (by simp [toPairs]) hl0 hmod
        have hwalk : lnotabWalk offset size (d :: l :: rest) c =
            chunkLoop (d + size) (d + size) l ++ rest := by
          simp [lnotabWalk, hco]
        rw [hwalk]
        obtain ⟨h1, h2, t, hcl, -⟩ := chunkLoop_shape (d + size) (d + size) l hrs
        have hns : nextStep ((c : Nat), ln)
            (chunkLoop (d + size) (d + size) l ++ rest) =
            some ((c + (d + size), ln + l), rest) :=
          nextStep_chunkLoop (d + size) (d + size) l rest (c, ln)
            hrs (le_refl _) hnosw
        have hnsr : nextStep ((c : Nat), ln) (d :: l :: rest) =
            some ((c + d, ln + l), rest) := by
          simp [nextStep, hsd]
        have hlena : (chunkLoop (d + size) (d + size) l ++ rest).length =
            t.length + rest.length + 2 := by
          rw [hcl]; simp only [List.length_append, List.length_cons]; omega
        rw [show (chunkLoop (d + size) (d + size) l ++ rest).length + 1 =
          (t.length + rest.length + 2) + 1 by omega]
        rw [decodeFrom_cons (t.length + rest.length + 2) hns,
          List.length_cons, List.length_cons]
        rw [decodeFrom_cons (rest.length + 1 + 1) hnsr]
        rw [decodeFrom_congr (t.length + rest.length + 2)
          (rest.length + 1) (c + (d + size), ln + l) rest (by omega) (by omega)]
        rw [decodeFrom_congr (rest.length + 1 + 1) (rest.length + 1)
          (c + d, ln + l) rest (by omega) (by omega)]
        have hhead : lnotabShift offset size (c + d, ln + l) =
            (c + d + size, ln + l) := by
          simp [lnotabShift, hco]
        rw [List.map_cons, hhead]
        have htail : (decodeFrom (rest.length + 1) (c + d, ln + l) rest).map
            (lnotabShift offset size) =
            (decodeFrom (rest.length + 1) (c + d, ln + l) rest).map
              (fun t => (t.1 + size, t.2)) := by
          apply List.map_congr_left
          intro u hu
          have := decodeFrom_fst_le (rest.length + 1) (c + d, ln + l) rest u hu
          simp only at this
          simp only [lnotabShift, if_pos (by omega : offset < u.1)]
        have hshift : decodeFrom (rest.length + 1) (c + d + size, ln + l) rest =
            (decodeFrom (rest.length + 1) (c + d, ln + l) rest).map
              (fun t => (t.1 + size, t.2)) :=
          decodeFrom_shift (rest.length + 1) (c + d, ln + l) size rest
        rw [htail, ← hshift]
        have e3 : c + (d + size) = c + d + size := by omega
        rw [e3]
      · -- entry kept, recursion continues with the accumulated offset
        have hwalk : lnotabWalk offset size (d :: l :: rest) c =
            d :: l :: lnotabWalk offset size rest (c + d) := by
          simp [lnotabWalk, hco]
        rw [hwalk]
        have hnsL : nextStep ((c : Nat), ln)
            (d :: l :: lnotabWalk offset size rest (c + d)) =
            some ((c + d, ln + l), lnotabWalk offset size rest (c + d)) := by
          simp [nextStep, hsd]
        have hnsR : nextStep ((c : Nat), ln) (d :: l :: rest) =
            some ((c + d, ln + l), rest) := by
          simp [nextStep, hsd]
        rw [List.length_cons, List.length_cons, List.length_cons, List.length_cons]
        rw [decodeFrom_cons ((lnotabWalk offset size rest (c + d)).length + 1 + 1) hnsL]
        rw [decodeFrom_cons (rest.length + 1 + 1) hnsR]
        rw [decodeFrom_congr ((lnotabWalk offset size rest (c + d)).length + 1 + 1)
          ((lnotabWalk offset size rest (c + d)).length + 1)
          (c + d, ln + l) (lnotabWalk offset size rest (c + d)) (by omega) (by omega)]
        rw [decodeFrom_congr (rest.length + 1 + 1) (rest.length + 1)
          (c + d, ln + l) rest (by omega) (by omega)]
        have hih := ih offset size (c + d) (ln + l) hstop2 hchunk2 (by omega)
        rw [hih, List.map_cons]
        have hhead : lnotabShift offset size (c + d, ln + l) = (c + d, ln + l) := by
          simp only [lnotabShift, if_neg (by omega : ¬ offset < c + d)]
        rw [hhead]
  | case2 bytes hsh =>
      intro offset size c ln hstop hchunk hc
      have hshape : bytes = [] ∨ ∃ x, bytes = [x] := by
        cases bytes with
        | nil => exact Or.inl rfl
        | cons a t =>
            cases t with
            | nil => exact Or.inr ⟨a, rfl⟩
            | cons b u => exact absurd rfl (hsh a b u)
      rcases hshape with rfl | ⟨x, rfl⟩
      · simp [lnotabWalk, decodeFrom, nextStep]
      · simp [lnotabWalk, decodeFrom, nextStep]

/-- C8 (counterexample): for the table [(2, 1), (4, 1)] decoded with first
line 10, inserting a gap of 2 at offset 2 produces [(2, 1), (6, 1)] (the
source keeps the entry that ends exactly at the insertion offset), so the
decoded pair (2, 11), whose offset is ≥ 2, is not shifted to (4, 11): the
claim requires every pair at offset ≥ o to shift by k, which fails at a
pair sitting exactly at offset o. -/
theorem C8_counterexample :
    ¬ (∀ p ∈ PyUtil.decodeVisible 10 [2, 1, 4, 1],
        (2 ≤ p.1 →
          (p.1 + 2, p.2) ∈
            PyUtil.decodeVisible 10 (InsertAndUpdateLnotab 2 2 [2, 1, 4, 1])) ∧
        (p.1 < 2 →
          p ∈ PyUtil.decodeVisible 10 (InsertAndUpdateLnotab 2 2 [2, 1, 4, 1]))) := by
  decide

/-- C8 (amended): for every line table made of stop pairs (no 0xFF
continuation pairs) such that no zero-line-delta entry widens to an exact
multiple of 255 (which would turn its final chunk into a continuation pair
swallowed by the following entry), decoding the table produced by
InsertAndUpdateLnotab yields every pair whose offset was strictly greater
than the insertion offset shifted forward by exactly the gap size, and every
pair whose offset was at most the insertion offset unchanged. -/
theorem C8_insert_gap_decode (lnotab : List Nat) (firstlineno offset size : Nat)
    (hstop : ∀ p ∈ PyUtil.toPairs lnotab, PyUtil.stopPair p.1 p.2 = true)
    (hchunk : ∀ p ∈ PyUtil.toPairs lnotab, p.2 = 0 → (p.1 + size) % 255 ≠ 0) :
    PyUtil.decodeVisible firstlineno (InsertAndUpdateLnotab offset size lnotab) =
      (PyUtil.decodeVisible firstlineno lnotab).map (lnotabShift offset size) := by
  cases lnotab with
  | nil =>
      simp [InsertAndUpdateLnotab, lnotabWalk, decodeVisible, decodeFrom,
        nextStep, lnotabShift]
  | cons d tail =>
      cases tail with
      | nil =>
          simp [InsertAndUpdateLnotab, lnotabWalk, decodeVisible, decodeFrom,
            nextStep, lnotabShift]
      | cons l rest =>
          have hsd : stopPair d l = true := hstop (d, l) (by simp [toPairs])
          have hstop2 : ∀ p ∈ toPairs rest, stopPair p.1 p.2 = true := by
            intro p hp; exact hstop p (by simp [toPairs, hp])
          have hchunk2 : ∀ p ∈ toPairs rest, p.2 = 0 → (p.1 + size) % 255 ≠ 0 := by
            intro p hp; exact hchunk p (by simp [toPairs, hp])
          by_cases hd : d = 0
          · subst hd
            have hwalk : InsertAndUpdateLnotab offset size (0 :: l :: rest) =
                0 :: l :: lnotabWalk offset size rest 0 := by
              simp [InsertAndUpdateLnotab, lnotabWalk]
            have hnsL : nextStep ((0 : Nat), firstlineno)
                (0 :: l :: lnotabWalk offset size rest 0) =
                some ((0, firstlineno + l), lnotabWalk offset size rest 0) := by
              simp [nextStep, hsd]
            have hnsR : nextStep ((0 : Nat), firstlineno) (0 :: l :: rest) =
                some ((0, firstlineno + l), rest) := by
              simp [nextStep, hsd]
            rw [hwalk]
            simp only [decodeVisible, if_pos rfl, hnsL, hnsR, if_true]
            have hw := decode_lnotabWalk rest offset size 0 (firstlineno + l)
              hstop2 hchunk2 (Nat.zero_le _)
            rw [hw, List.map_cons]
            have hhead : lnotabShift offset size (0, firstlineno + l) =
                (0, firstlineno + l) := by
              simp [lnotabShift]
            rw [hhead]
          · have hw := decode_lnotabWalk (d :: l :: rest) offset size 0
              firstlineno hstop hchunk (Nat.zero_le _)
            by_cases hco : offset < d
            · have hrs : 1 ≤ d + size := by omega
              obtain ⟨h1, h2, t, hcl, hh1⟩ :=
                chunkLoop_shape (d + size) (d + size) l hrs
              have hwalk : lnotabWalk offset size (d :: l :: rest) 0 =
                  h1 :: h2 :: (t ++ rest) := by
                simp [lnotabWalk, hco, hcl]
              rw [InsertAndUpdateLnotab, hwalk]
              rw [hwalk] at hw
              simp only [decodeVisible, if_neg hd, if_neg (by omega : ¬ h1 = 0)]
              rw [hw, List.map_cons]
              have hhead : lnotabShift offset size (0, firstlineno) =
                  (0, firstlineno) := by
                simp [lnotabShift]
              rw [hhead]
            · have hwalk : lnotabWalk offset size (d :: l :: rest) 0 =
                  d :: l :: lnotabWalk offset size rest (0 + d) := by
                simp [lnotabWalk, hco]
              rw [InsertAndUpdateLnotab, hwalk]
              rw [hwalk] at hw
              simp only [decodeVisible, if_neg hd]
              rw [hw, List.map_cons]
              have hhead : lnotabShift offset size (0, firstlineno) =
                  (0, firstlineno) := by
                simp [lnotabShift]
              rw [hhead]

/-- C8 (witness): the amended theorem applied to the table [(2, 1), (4, 1)]
with first line 10, insertion offset 2 and gap 2. -/
theorem C8_witness :
    (∀ p ∈ PyUtil.toPairs [2, 1, 4, 1], PyUtil.stopPair p.1 p.2 = true) ∧
    PyUtil.decodeVisible 10 (InsertAndUpdateLnotab 2 2 [2, 1, 4, 1]) =
      (PyUtil.decodeVisible 10 [2, 1, 4, 1]).map (lnotabShift 2 2) :=
  ⟨by decide, C8_insert_gap_decode [2, 1, 4, 1] 10 2 2 (by decide) (by decide)⟩

/-! Embedding of InsertMethodCall (Python 3 branch), AppendMethodCall and
InjectMethodCall. -/

/-- First loop of InsertMethodCall: walks the bytecode gathering every
branch instruction and recording whether the requested offset is an
instruction boundary; none models the false return on an unreadable
instruction. -/
def gatherBranches (bytecode : List Nat) (offset : Nat) :
    Nat → Nat → List UpdatedInstruction → Bool →
      Option (List UpdatedInstruction × Bool)
  | 0, _, acc, valid => some (acc, valid)
  | fuel + 1, pos, acc, valid =>
      if pos < bytecode.length then
        let valid2 := valid || (pos == offset)
        match ReadInstruction bytecode pos with
        | none => none
        | some instruction =>
            let opcode_type := GetOpcodeType instruction.opcode
            let acc2 :=
              if opcode_type = BRANCH_DELTA_OPCODE ∨
                  opcode_type = BRANCH_ABSOLUTE_OPCODE then
                acc ++ [{ instruction := instruction,
                          original_size := instruction.size,
                          current_offset := pos }]
              else acc
            gatherBranches bytecode offset fuel (pos + instruction.size) acc2 valid2
      else some (acc, valid)

/-- Writes one recalculated branch instruction back into the bytecode
(the final loop of InsertMethodCall): a grown instruction gets NOP padding
inserted first (and the line table expanded); a shrunk instruction keeps
the redundant EXTENDED_ARG prefix of the compiler and is written after
it. -/
def writeUpdatedInstruction (has_lnotab : Bool) (acc : Data)
    (it : UpdatedInstruction) : Data :=
  let size_diff : Int := (it.instruction.size : Int) - it.original_size
  if 0 < size_diff then
    let bytecode2 := acc.bytecode.take it.current_offset ++
      List.replicate size_diff.toNat NOP ++ acc.bytecode.drop it.current_offset
    let lnotab2 :=
      if has_lnotab then
        InsertAndUpdateLnotab it.current_offset size_diff.toNat acc.lnotab
      else acc.lnotab
    { bytecode := overwriteAt bytecode2 it.current_offset
        (WriteInstructionBytes it.instruction),
      lnotab := lnotab2 }
  else
    let write_offset :=
      if size_diff < 0 then ((it.current_offset : Int) - size_diff).toNat
      else it.current_offset
    { acc with
      bytecode :=
        overwriteAt acc.bytecode write_offset (WriteInstructionBytes it.instruction) }

/-- BytecodeManipulator::InsertMethodCall (Python 3 branch): gathers the
branches, validates the offset, runs the widening cascade, splices the
method call (as NOPs overwritten by the call instructions), updates the
line table and writes the recalculated branches back. -/
def InsertMethodCall (has_lnotab : Bool) (data : Data)
    (offset const_index : Nat) : Option Data :=
  match gatherBranches data.bytecode offset (data.bytecode.length + 1) 0 [] false with
  | none => none
  | some (updated, offset_valid) =>
      if offset_valid then
        let method_call_instructions := BuildMethodCall const_index
        let method_call_size := GetInstructionsSize method_call_instructions
        match InsertAndUpdateBranchInstructions
            { size := method_call_size, current_offset := offset } updated with
        | none => none
        | some updated2 =>
            let bytecode1 := data.bytecode.take offset ++
              List.replicate method_call_size NOP ++ data.bytecode.drop offset
            let bytecode2 := overwriteAt bytecode1 offset
              (WriteInstructionsBytes method_call_instructions)
            let lnotab2 :=
              if has_lnotab then InsertAndUpdateLnotab offset method_call_size data.lnotab
              else data.lnotab
            some (updated2.foldl (writeUpdatedInstruction has_lnotab)
              { bytecode := bytecode2, lnotab := lnotab2 })
      else none

/-- Relocation loop of AppendMethodCall: relocates instructions starting at
the injection offset until the trampoline fits; fails on buffer overrun, on
an unreadable instruction, and on relative-branch or yield opcodes, which
must not be moved. -/
def relocateLoop (bytecode : List Nat) (trampoline_size : Nat) :
    Nat → Nat → Nat → List PythonInstruction →
      Option (List PythonInstruction × Nat)
  | 0, _, relocated_size, acc => some (acc, relocated_size)
  | fuel + 1, pos, relocated_size, acc =>
      if relocated_size < trampoline_size then
        if pos ≥ bytecode.length then none
        else
          match ReadInstruction bytecode pos with
          | none => none
          | some instruction =>
              let opcode_type := GetOpcodeType instruction.opcode
              if opcode_type = BRANCH_DELTA_OPCODE ∨
                  opcode_type = YIELD_OPCODE then none
              else
                relocateLoop bytecode trampoline_size fuel
                  (pos + instruction.size)
                  (relocated_size + instruction.size) (acc ++ [instruction])
      else some (acc, relocated_size)

/-- Scan loop of AppendMethodCall: walks the whole bytecode; false when an
instruction cannot be read or when a branch target lands strictly inside
the relocated region (offset, offset + relocated_size). -/
def scanBranchTargets (bytecode : List Nat) (offset relocated_size : Nat) :
    Nat → Nat → Bool
  | 0, _ => true
  | fuel + 1, pos =>
      if pos < bytecode.length then
        match ReadInstruction bytecode pos with
        | none => false
        | some instruction =>
            let opcode_type := GetOpcodeType instruction.opcode
            if opcode_type = BRANCH_DELTA_OPCODE ∨
                opcode_type = BRANCH_ABSOLUTE_OPCODE then
              let branch_target := GetBranchTarget pos instruction
              if (offset : Int) < branch_target ∧
                  branch_target < (offset : Int) + relocated_size then false
              else scanBranchTargets bytecode offset relocated_size fuel
                (pos + instruction.size)
            else scanBranchTargets bytecode offset relocated_size fuel
              (pos + instruction.size)
      else true

/-- Branch targets of the decoded instruction sequence together with their
positions, used to state the scan claims. -/
def branchTargets (bytecode : List Nat) : Nat → Nat → List Int
  | 0, _ => []
  | fuel + 1, pos =>
      if pos < bytecode.length then
        match ReadInstruction bytecode pos with
        | none => []
        | some instruction =>
            let opcode_type := GetOpcodeType instruction.opcode
            if opcode_type = BRANCH_DELTA_OPCODE ∨
                opcode_type = BRANCH_ABSOLUTE_OPCODE then
              GetBranchTarget pos instruction ::
                branchTargets bytecode fuel (pos + instruction.size)
            else branchTargets bytecode fuel (pos + instruction.size)
      else []

/-- Fills a byte range with a value, as std::fill does; the caller
guarantees lo ≤ hi ≤ length. -/
def fillRange (buf : List Nat) (lo hi v : Nat) : List Nat :=
  buf.take lo ++ List.replicate (hi - lo) v ++ buf.drop hi

/-- BytecodeManipulator::AppendMethodCall: writes an absolute jump
(trampoline) at the injection offset, relocates the overwritten
instructions to an appended block holding the method call, the relocated
instructions and a jump back, NOP-fills the gap, and leaves the line table
untouched. -/
def AppendMethodCall (data : Data) (offset const_index : Nat) : Option Data :=
  let trampoline := PythonInstructionArg JUMP_ABSOLUTE data.bytecode.length
  match relocateLoop data.bytecode trampoline.size trampoline.size offset 0 [] with
  | none => none
  | some (relocated_instructions, relocated_size) =>
      if scanBranchTargets data.bytecode offset relocated_size
          (data.bytecode.length + 1) 0 then
        let appendix := BuildMethodCall const_index ++ relocated_instructions ++
          [PythonInstructionArg JUMP_ABSOLUTE (offset + relocated_size)]
        let pos := data.bytecode.length
        let bytecode1 := data.bytecode ++
          List.replicate (GetInstructionsSize appendix) 0
        let bytecode2 := overwriteAt bytecode1 pos (WriteInstructionsBytes appendix)
        let bytecode3 := overwriteAt bytecode2 offset (WriteInstructionBytes trampoline)
        let bytecode4 := fillRange bytecode3 (offset + trampoline.size)
          (offset + relocated_size) NOP
        some { data with bytecode := bytecode4 }
      else none

/-- BytecodeManipulator::InjectMethodCall: rewrites a working copy of the
data with the strategy selected at construction and swaps it in only on
success; false and no change on failure. -/
def InjectMethodCall (m : BytecodeManipulator) (offset callable_const_index : Nat) :
    BytecodeManipulator × Bool :=
  match m.strategy with
  | Strategy.STRATEGY_INSERT =>
      match InsertMethodCall m.has_lnotab m.data offset callable_const_index with
      | none => (m, false)
      | some new_data => ({ m with data := new_data }, true)
  | Strategy.STRATEGY_APPEND =>
      match AppendMethodCall m.data offset callable_const_index with
      | none => (m, false)
      | some new_data => ({ m with data := new_data }, true)
  | Strategy.STRATEGY_FAIL => (m, false)

/-- C2: whenever InjectMethodCall reports failure, the manipulator -- its
bytecode and its line table -- is exactly what it was before the call: the
rewrite works on a copy that is swapped in only on success. -/
theorem C2_inject_failure_no_change (m : BytecodeManipulator)
    (offset const_index : Nat)
    (h : (InjectMethodCall m offset const_index).2 = false) :
    (InjectMethodCall m offset const_index).1 = m := by
  cases hs : m.strategy with
  | STRATEGY_INSERT =>
      simp only [InjectMethodCall, hs] at h ⊢
      cases hi : InsertMethodCall m.has_lnotab m.data offset const_index with
      | none => simp [hi]
      | some d => simp [hi] at h
  | STRATEGY_APPEND =>
      simp only [InjectMethodCall, hs] at h ⊢
      cases hi : AppendMethodCall m.data offset const_index with
      | none => simp [hi]
      | some d => simp [hi] at h
  | STRATEGY_FAIL => simp [InjectMethodCall, hs]

/-- C2 (witness): injecting into a manipulator whose bytecode is the single
truncated byte [EXTENDED_ARG] fails and leaves the manipulator unchanged. -/
theorem C2_witness :
    (InjectMethodCall (mkBytecodeManipulator [144] true []) 0 0).2 = false ∧
    (InjectMethodCall (mkBytecodeManipulator [144] true []) 0 0).1 =
      mkBytecodeManipulator [144] true [] :=
  ⟨by decide,
   C2_inject_failure_no_change (mkBytecodeManipulator [144] true []) 0 0 (by decide)⟩

theorem scanBranchTargets_iff (bytecode : List Nat) (offset relocated_size : Nat) :
    ∀ fuel pos,
      scanBranchTargets bytecode offset relocated_size fuel pos = false ↔
        ((decodeList bytecode fuel pos).2 = false ∨
          ∃ t ∈ branchTargets bytecode fuel pos,
            (offset : Int) < t ∧ t < (offset : Int) + relocated_size) := by
  intro fuel
  induction fuel with
  | zero =>
      intro pos
      simp [scanBranchTargets, decodeList, branchTargets]
  | succ n ih =>
      intro pos
      simp only [scanBranchTargets, decodeList, branchTargets]
      by_cases hp : pos < bytecode.length
      · simp only [hp, if_true]
        cases hr : ReadInstruction bytecode pos with
        | none => simp
        | some instruction =>
            by_cases hb : GetOpcodeType instruction.opcode = BRANCH_DELTA_OPCODE ∨
                GetOpcodeType instruction.opcode = BRANCH_ABSOLUTE_OPCODE
            · simp only [hb, if_true]
              by_cases ht : (offset : Int) < GetBranchTarget pos instruction ∧
                  GetBranchTarget pos instruction < (offset : Int) + relocated_size
              · simp [ht]
              · simp only [ht, if_false, ih (pos + instruction.size)]
                constructor
                · rintro (hdec | ⟨t, htmem, htin⟩)
                  · exact Or.inl hdec
                  · exact Or.inr ⟨t, List.mem_cons_of_mem _ htmem, htin⟩
                · rintro (hdec | ⟨t, htmem, htin⟩)
                  · exact Or.inl hdec
                  · rcases List.mem_cons.mp htmem with rfl | hm
                    · exact absurd htin ht
                    · exact Or.inr ⟨t, hm, htin⟩
            · simp only [hb, if_false, ih (pos + instruction.size)]
      · simp [hp]

/-- C7 (counterexample): on the yield-bearing bytecode
[JUMP_ABSOLUTE 6, YIELD_VALUE, EXTENDED_ARG 1 LOAD_CONST 0, RETURN_VALUE]
the append-strategy injection at offset 4 has jump_size 2 (the trampoline
JUMP_ABSOLUTE 10 fits one unit) and relocated_size 4, and it fails, even
though no branch target lies strictly between offset + jump_size = 6 and
offset + relocated_size = 8: the only branch target is 6 itself.  The
source scan rejects every target strictly between offset and
offset + relocated_size. -/
theorem C7_counterexample :
    (InjectMethodCall
        (mkBytecodeManipulator [113, 6, 86, 0, 144, 1, 100, 0, 83, 0] true [])
        4 0).2 = false ∧
    (mkBytecodeManipulator [113, 6, 86, 0, 144, 1, 100, 0, 83, 0] true []).strategy =
      Strategy.STRATEGY_APPEND ∧
    (PythonInstructionArg JUMP_ABSOLUTE
      ([113, 6, 86, 0, 144, 1, 100, 0, 83, 0] : List Nat).length).size = 2 ∧
    (relocateLoop [113, 6, 86, 0, 144, 1, 100, 0, 83, 0] 2 2 4 0 []).map Prod.snd =
      some 4 ∧
    (∀ t ∈ branchTargets [113, 6, 86, 0, 144, 1, 100, 0, 83, 0] 11 0,
      ¬ ((4 + 2 : Int) < t ∧ t < (4 + 4 : Int))) := by
  refine ⟨by decide, by decide, by decide, by decide, by decide⟩

/-- C7 (amended): during an append-strategy injection over bytecode that
decodes fully, the whole-bytecode scan fails exactly when some branch
target lies strictly between offset and offset + relocated_size (not
offset + jump_size); branch targets outside that open interval do not make
the scan fail. -/
theorem C7_append_scan (bytecode : List Nat) (offset relocated_size : Nat)
    (hdec : (decodeList bytecode (bytecode.length + 1) 0).2 = true) :
    scanBranchTargets bytecode offset relocated_size (bytecode.length + 1) 0 =
        false ↔
      ∃ t ∈ branchTargets bytecode (bytecode.length + 1) 0,
        (offset : Int) < t ∧ t < (offset : Int) + relocated_size := by
  rw [scanBranchTargets_iff bytecode offset relocated_size (bytecode.length + 1) 0]
  rw [hdec]
  simp

/-- C7 (witness): the amended characterization applied to the bytecode of
the counterexample, whose scan fails because the branch target 6 lies in
the open interval (4, 8). -/
theorem C7_witness :
    (decodeList [113, 6, 86, 0, 144, 1, 100, 0, 83, 0] 11 0).2 = true ∧
    (scanBranchTargets [113, 6, 86, 0, 144, 1, 100, 0, 83, 0] 4 4 11 0 = false ↔
      ∃ t ∈ branchTargets [113, 6, 86, 0, 144, 1, 100, 0, 83, 0] 11 0,
        (4 : Int) < t ∧ t < (4 : Int) + 4) :=
  ⟨by decide, C7_append_scan [113, 6, 86, 0, 144, 1, 100, 0, 83, 0] 4 4 (by decide)⟩

end Manip

/-! Embedding of immutability_tracer.cc (Python 3 build, CPython 3.7):
the opcode classification and the LINE-event walk ProcessCodeLine /
ProcessCodeRange. -/

namespace Tracer

open Py3 PyUtil

/-- Classification of an opcode for the sandbox
(enum OpcodeMutableStatus). -/
inductive OpcodeMutableStatus where
  | OPCODE_MUTABLE
  | OPCODE_NOT_MUTABLE
  | OPCODE_MAYBE_MUTABLE
deriving DecidableEq, Repr

open OpcodeMutableStatus

/-- Opcodes of the OPCODE_NOT_MUTABLE cases of IsOpcodeMutable in the
Python 3.7 build. -/
def immutableOpcodes : List Nat :=
  [POP_TOP, ROT_TWO, ROT_THREE, DUP_TOP, NOP, UNARY_POSITIVE, UNARY_NEGATIVE,
   UNARY_INVERT, BINARY_POWER, BINARY_MULTIPLY, BINARY_MODULO, BINARY_ADD,
   BINARY_SUBTRACT, BINARY_SUBSCR, BINARY_FLOOR_DIVIDE, BINARY_TRUE_DIVIDE,
   INPLACE_FLOOR_DIVIDE, INPLACE_TRUE_DIVIDE, INPLACE_ADD, INPLACE_SUBTRACT,
   INPLACE_MULTIPLY, INPLACE_MODULO, BINARY_LSHIFT, BINARY_RSHIFT, BINARY_AND,
   BINARY_XOR, INPLACE_POWER, GET_ITER, INPLACE_LSHIFT, INPLACE_RSHIFT,
   INPLACE_AND, INPLACE_XOR, INPLACE_OR, RETURN_VALUE, YIELD_VALUE, POP_BLOCK,
   UNPACK_SEQUENCE, FOR_ITER, LOAD_CONST, LOAD_NAME, BUILD_TUPLE, BUILD_LIST,
   BUILD_SET, BUILD_MAP, LOAD_ATTR, COMPARE_OP, JUMP_FORWARD,
   JUMP_IF_FALSE_OR_POP, JUMP_IF_TRUE_OR_POP, POP_JUMP_IF_TRUE,
   POP_JUMP_IF_FALSE, LOAD_GLOBAL, LOAD_FAST, STORE_FAST, DELETE_FAST,
   CALL_FUNCTION, MAKE_FUNCTION, BUILD_SLICE, LOAD_DEREF, CALL_FUNCTION_KW,
   EXTENDED_ARG, BREAK_LOOP, CONTINUE_LOOP, SETUP_LOOP, DUP_TOP_TWO,
   BINARY_MATRIX_MULTIPLY, INPLACE_MATRIX_MULTIPLY, GET_YIELD_FROM_ITER,
   YIELD_FROM, UNPACK_EX, CALL_FUNCTION_EX, LOAD_CLASSDEREF,
   BUILD_LIST_UNPACK, BUILD_MAP_UNPACK, BUILD_MAP_UNPACK_WITH_CALL,
   BUILD_TUPLE_UNPACK, BUILD_SET_UNPACK, FORMAT_VALUE, BUILD_CONST_KEY_MAP,
   BUILD_STRING, BUILD_TUPLE_UNPACK_WITH_CALL, LOAD_METHOD, CALL_METHOD]

/-- Opcodes of the OPCODE_MUTABLE cases of IsOpcodeMutable in the Python
3.7 build. -/
def mutableOpcodes : List Nat :=
  [PRINT_EXPR, STORE_GLOBAL, DELETE_GLOBAL, IMPORT_STAR, IMPORT_NAME,
   IMPORT_FROM, SETUP_FINALLY, STORE_SUBSCR, DELETE_SUBSCR, STORE_NAME,
   DELETE_NAME, STORE_ATTR, DELETE_ATTR, LIST_APPEND, SET_ADD, MAP_ADD,
   STORE_DEREF, RAISE_VARARGS, END_FINALLY, SETUP_WITH, LOAD_CLOSURE,
   SETUP_EXCEPT, GET_AITER, GET_ANEXT, BEFORE_ASYNC_WITH, LOAD_BUILD_CLASS,
   GET_AWAITABLE, WITH_CLEANUP_START, WITH_CLEANUP_FINISH, SETUP_ANNOTATIONS,
   POP_EXCEPT, DELETE_DEREF, SETUP_ASYNC_WITH]

/-- Classification switch IsOpcodeMutable: opcodes in neither table fall
through to OPCODE_MAYBE_MUTABLE. -/
def IsOpcodeMutable (opcode : Nat) : OpcodeMutableStatus :=
  if opcode ∈ immutableOpcodes then OPCODE_NOT_MUTABLE
  else if opcode ∈ mutableOpcodes then OPCODE_MUTABLE
  else OPCODE_MAYBE_MUTABLE

/-- Walk of ImmutabilityTracer::ProcessCodeRange (Python 3 build): steps 2
bytes per opcode from pos up to endPos; returns whether mutable code was
detected.  A mutable opcode aborts; an unknown opcode aborts unless it is
JUMP_ABSOLUTE, which aborts only when its argument byte equals its own
offset (the tight-infinite-loop jump-to-self pattern). -/
def processCodeRange (code : List Nat) : Nat → Nat → Nat → Bool
  | 0, _, _ => false
  | fuel + 1, pos, endPos =>
      if pos < endPos then
        let opcode := code.getD pos 0
        match IsOpcodeMutable opcode with
        | OPCODE_NOT_MUTABLE => processCodeRange code fuel (pos + 2) endPos
        | OPCODE_MAYBE_MUTABLE =>
            if opcode = JUMP_ABSOLUTE then
              if pos = code.getD (pos + 1) 0 then true
              else processCodeRange code fuel (pos + 2) endPos
            else true
        | OPCODE_MUTABLE => true
      else false

/-- ProcessCodeRange on the range [start, start + size); the canonical fuel
size + 1 always outlasts the 2-byte steps of the loop. -/
def ProcessCodeRange (code : List Nat) (start size : Nat) : Bool :=
  processCodeRange code (size + 1) start (start + size)

/-- Offsets visited by the ProcessCodeRange walk (it advances uniformly by
2 bytes whatever the opcode). -/
def walkedPositions : Nat → Nat → Nat → List Nat
  | 0, _, _ => []
  | fuel + 1, pos, endPos =>
      if pos < endPos then pos :: walkedPositions fuel (pos + 2) endPos
      else []

/-- Whether the opcode at offset p makes the walk abort: classified mutable,
or unknown and not a JUMP_ABSOLUTE, or a JUMP_ABSOLUTE to itself. -/
def opcodeAborts (code : List Nat) (p : Nat) : Bool :=
  match IsOpcodeMutable (code.getD p 0) with
  | OPCODE_NOT_MUTABLE => false
  | OPCODE_MUTABLE => true
  | OPCODE_MAYBE_MUTABLE =>
      if code.getD p 0 = JUMP_ABSOLUTE then code.getD (p + 1) 0 == p else true

/-- Loop of ImmutabilityTracer::ProcessCodeLine over the visible enumerator
states: a pending start offset is flushed into a ProcessCodeRange call
ending at the next boundary, and the start is rearmed at every boundary
whose line matches; the mutable-code flag accumulates by or. -/
def processLineLoop (code : List Nat) (size line : Nat) :
    List (Nat × Nat) → Option Nat → Bool → Bool
  | [], start, acc =>
      match start with
      | some s => acc || ProcessCodeRange code s (size - s)
      | none => acc
  | v :: rest, start, acc =>
      let acc2 :=
        match start with
        | some s => acc || ProcessCodeRange code s (v.1 - s)
        | none => acc
      processLineLoop code size line rest
        (if v.2 = line then some v.1 else none) acc2

/-- ImmutabilityTracer::ProcessCodeLine: walks every opcode range mapped to
the current source line through the line table enumerator. -/
def ProcessCodeLine (code : List Nat) (firstlineno : Nat) (lnotab : List Nat)
    (line_number : Nat) : Bool :=
  processLineLoop code code.length line_number
    (decodeVisible firstlineno lnotab) none false

/-- Ranges (start, length) that ProcessCodeLine hands to ProcessCodeRange
for a given visible boundary sequence, line and code size. -/
def lineWalkRanges (size line : Nat) :
    List (Nat × Nat) → Option Nat → List (Nat × Nat)
  | [], start =>
      match start with
      | some s => [(s, size - s)]
      | none => []
  | v :: rest, start =>
      (match start with
       | some s => [(s, v.1 - s)]
       | none => []) ++
        lineWalkRanges size line rest (if v.2 = line then some v.1 else none)

theorem processCodeRange_iff (code : List Nat) :
    ∀ (fuel pos endPos : Nat),
      processCodeRange code fuel pos endPos = true ↔
        ∃ p ∈ walkedPositions fuel pos endPos, opcodeAborts code p = true := by
  intro fuel
  induction fuel with
  | zero => intro pos endPos; simp [processCodeRange, walkedPositions]
  | succ n ih =>
      intro pos endPos
      simp only [processCodeRange, walkedPositions]
      by_cases hp : pos < endPos
      · simp only [hp, if_true]
        cases hm : IsOpcodeMutable (code.getD pos 0) with
        | OPCODE_NOT_MUTABLE =>
            rw [ih (pos + 2) endPos]
            constructor
            · rintro ⟨p, hpm, hab⟩
              exact ⟨p, List.mem_cons_of_mem _ hpm, hab⟩
            · rintro ⟨p, hpm, hab⟩
              rcases List.mem_cons.mp hpm with rfl | hpm2
              · rw [opcodeAborts, hm] at hab
                exact absurd hab (by simp)
              · exact ⟨p, hpm2, hab⟩
        | OPCODE_MUTABLE =>
            simp only [true_iff]
            exact ⟨pos, List.mem_cons_self .., by rw [opcodeAborts, hm]⟩
        | OPCODE_MAYBE_MUTABLE =>
            by_cases hj : code.getD pos 0 = JUMP_ABSOLUTE
            · simp only [hj, if_true]
              by_cases hself : pos = code.getD (pos + 1) 0
              · rw [if_pos hself]
                simp only [true_iff]
                refine ⟨pos, List.mem_cons_self .., ?_⟩
                rw [opcodeAborts, hm, if_pos hj]
                simpa using hself.symm
              · rw [if_neg hself, ih (pos + 2) endPos]
                constructor
                · rintro ⟨p, hpm, hab⟩
                  exact ⟨p, List.mem_cons_of_mem _ hpm, hab⟩
                · rintro ⟨p, hpm, hab⟩
                  rcases List.mem_cons.mp hpm with heq | hpm2
                  · rw [heq] at hab
                    rw [opcodeAborts, hm, if_pos hj] at hab
                    have he : code.getD (pos + 1) 0 = pos := by simpa using hab
                    exact absurd he.symm hself
                  · exact ⟨p, hpm2, hab⟩
            · simp only [hj, if_false, true_iff]
              refine ⟨pos, List.mem_cons_self .., ?_⟩
              rw [opcodeAborts, hm, if_neg hj]
      · simp [hp]

theorem processLineLoop_eq (code : List Nat) (size line : Nat) :
    ∀ (visible : List (Nat × Nat)) (start : Option Nat) (acc : Bool),
      processLineLoop code size line visible start acc =
        (acc || (lineWalkRanges size line visible start).any
          (fun r => ProcessCodeRange code r.1 r.2)) := by
  intro visible
  induction visible with
  | nil =>
      intro start acc
      cases start <;> simp [processLineLoop, lineWalkRanges]
  | cons v rest ih =>
      intro start acc
      cases start with
      | none =>
          simp only [processLineLoop, lineWalkRanges, List.nil_append]
          exact ih _ acc
      | some s =>
          simp only [processLineLoop, lineWalkRanges, List.any_cons,
            List.singleton_append]
          rw [ih _ (acc || ProcessCodeRange code s (v.1 - s))]
          simp [Bool.or_assoc]

/-- C3 (counterexample): the range [JUMP_ABSOLUTE 4, RETURN_VALUE] contains
the opcode JUMP_ABSOLUTE, which in the Python 3 build is not in the
immutable table (IsOpcodeMutable returns OPCODE_MAYBE_MUTABLE), yet
ProcessCodeRange does not abort: a forward JUMP_ABSOLUTE is allowed and
only the jump-to-self pattern is rejected, so unknown opcodes are not
uniformly fail-closed. -/
theorem C3_counterexample :
    ¬ ((∃ p ∈ walkedPositions 5 0 4,
          IsOpcodeMutable (([113, 4, 83, 0] : List Nat).getD p 0) ≠
            OPCODE_NOT_MUTABLE) →
        ProcessCodeRange [113, 4, 83, 0] 0 4 = true) := by
  decide

/-- C3 (amended): processing a LINE event walks every opcode range mapped
to the current source line via the line table, and evaluation aborts as
mutable-code-detected exactly when some walked opcode is classified
mutable, or is unknown and not a JUMP_ABSOLUTE, or is a JUMP_ABSOLUTE
jumping to itself; otherwise evaluation continues. -/
theorem C3_line_walk (code : List Nat) (firstlineno : Nat) (lnotab : List Nat)
    (line : Nat) :
    ProcessCodeLine code firstlineno lnotab line = true ↔
      ∃ r ∈ lineWalkRanges code.length line
          (PyUtil.decodeVisible firstlineno lnotab) none,
        ∃ p ∈ walkedPositions (r.2 + 1) r.1 (r.1 + r.2),
          opcodeAborts code p = true := by
  rw [ProcessCodeLine, processLineLoop_eq]
  simp only [Bool.false_or, List.any_eq_true]
  constructor
  · rintro ⟨r, hr, habort⟩
    exact ⟨r, hr, (processCodeRange_iff code (r.2 + 1) r.1 (r.1 + r.2)).mp habort⟩
  · rintro ⟨r, hr, hex⟩
    exact ⟨r, hr, (processCodeRange_iff code (r.2 + 1) r.1 (r.1 + r.2)).mpr hex⟩

end Tracer

/-! Embedding of leaky_bucket.cc / leaky_bucket.h.  The double
fractional_tokens_ is modelled as a rational; the C++ double-to-int64
conversion truncates toward zero, modelled by ratTrunc.  The monotonic
clock is passed explicitly to every operation.  The interleaving of the
claim is modelled as a sequence of operations, which is what the
interpreter lock and the internal mutex of the source reduce it to. -/

namespace Bucket

/-- Truncation of a rational toward zero, the value of the C++ conversion
of a double to int64. -/
def ratTrunc (q : ℚ) : Int := q.num / (q.den : Int)

/-- State of a LeakyBucket: token count, capacity, fractional tokens, fill
rate in tokens per second, and time of the last refill in nanoseconds. -/
structure LeakyBucket where
  tokens : Int
  capacity : Int
  fractional_tokens : ℚ
  fill_rate : Int
  fill_time_ns : Int
deriving DecidableEq, Repr

/-- Constructor LeakyBucket::LeakyBucket: the bucket starts full. -/
def mkLeakyBucket (capacity fill_rate : Int) (now_ns : Int) : LeakyBucket :=
  { tokens := capacity, capacity := capacity, fractional_tokens := 0,
    fill_rate := fill_rate, fill_time_ns := now_ns }

/-- LeakyBucket::RefillBucket: adds tokens accumulated since the last fill
time, capped at capacity minus the tokens available before refilling;
returns the new token count together with the new state.  When the clock
did not advance past the last fill time nothing happens. -/
def RefillBucket (b : LeakyBucket) (available_tokens current_time_ns : Int) :
    Int × LeakyBucket :=
  if current_time_ns ≤ b.fill_time_ns then
    (b.tokens, b)
  else
    let elapsed_ns := current_time_ns - b.fill_time_ns
    let fractional2 : ℚ := b.fractional_tokens +
      min ((elapsed_ns : ℚ) * ((b.fill_rate : ℚ) / 1000000000))
        ((b.capacity : ℚ))
    let ideal_tokens_to_add : Int := ratTrunc fractional2
    let max_tokens_to_add : Int := b.capacity - available_tokens
    let r : ℚ × Int :=
      if max_tokens_to_add < ideal_tokens_to_add then
        (0, max_tokens_to_add)
      else (fractional2 - (ideal_tokens_to_add : ℚ), ideal_tokens_to_add)
    let tokens2 := b.tokens + r.2
    (tokens2,
     { b with tokens := tokens2, fractional_tokens := r.1,
              fill_time_ns := current_time_ns })

/-- LeakyBucket::RequestTokensSlow: under the lock, succeed if another
refill already made the count non-negative, otherwise refill and on
definitive failure restore the requested tokens. -/
def RequestTokensSlow (b : LeakyBucket) (requested_tokens current_time_ns : Int) :
    Bool × LeakyBucket :=
  let cur_tokens := b.tokens
  if cur_tokens ≥ 0 then (true, b)
  else
    let r := RefillBucket b (requested_tokens + cur_tokens) current_time_ns
    if r.1 ≥ 0 then (true, r.2)
    else (false, { r.2 with tokens := r.2.tokens + requested_tokens })

/-- LeakyBucket::RequestTokens (fast path): requests above the capacity
always fail; otherwise the count is decremented and the slow path is taken
when it goes negative. -/
def RequestTokens (b : LeakyBucket) (requested_tokens now_ns : Int) :
    Bool × LeakyBucket :=
  if requested_tokens > b.capacity then (false, b)
  else
    let remaining := b.tokens - requested_tokens
    let b2 := { b with tokens := remaining }
    if remaining ≥ 0 then (true, b2)
    else RequestTokensSlow b2 requested_tokens now_ns

/-- LeakyBucket::TakeTokens: unconditional subtraction, followed by a
refill attempt when the count went negative. -/
def TakeTokens (b : LeakyBucket) (tokens now_ns : Int) : LeakyBucket :=
  let remaining := b.tokens - tokens
  let b2 := { b with tokens := remaining }
  if remaining < 0 then (RefillBucket b2 remaining now_ns).2
  else b2

/-- One operation of an interleaving on a bucket, with the clock value it
observes. -/
inductive BucketOp where
  | request (n : Int) (now_ns : Int)
  | take (n : Int) (now_ns : Int)
deriving DecidableEq, Repr

/-- Token amount of an operation. -/
def opAmount : BucketOp → Int
  | .request n _ => n
  | .take n _ => n

/-- Applies one operation to the bucket. -/
def applyOp (b : LeakyBucket) : BucketOp → LeakyBucket
  | .request n t => (RequestTokens b n t).2
  | .take n t => TakeTokens b n t

/-- Runs an interleaving of operations. -/
def runBucket (b : LeakyBucket) (ops : List BucketOp) : LeakyBucket :=
  ops.foldl applyOp b

theorem RefillBucket_capacity (b : LeakyBucket) (avail now : Int) :
    (RefillBucket b avail now).2.capacity = b.capacity := by
  rw [RefillBucket]
  by_cases h : now ≤ b.fill_time_ns <;> simp [h]

theorem RefillBucket_tokens_fst (b : LeakyBucket) (avail now : Int) :
    (RefillBucket b avail now).1 = (RefillBucket b avail now).2.tokens := by
  rw [RefillBucket]
  by_cases h : now ≤ b.fill_time_ns <;> simp [h]

theorem RefillBucket_tokens_le (b : LeakyBucket) (avail now : Int) :
    (RefillBucket b avail now).2.tokens ≤
      max b.tokens (b.tokens + (b.capacity - avail)) := by
  rw [RefillBucket]
  by_cases h : now ≤ b.fill_time_ns
  · simp [h]
  · simp only [h, if_false]
    split
    · exact le_max_right _ _
    · next h2 =>
        refine le_trans ?_ (le_max_right b.tokens (b.tokens + (b.capacity - avail)))
        simp only
        omega

theorem RequestTokensSlow_capacity (b : LeakyBucket) (n t : Int) :
    (RequestTokensSlow b n t).2.capacity = b.capacity := by
  rw [RequestTokensSlow]
  by_cases h1 : b.tokens ≥ 0
  · simp [h1]
  · simp only [h1, if_false]
    by_cases h2 : (RefillBucket b (n + b.tokens) t).1 ≥ 0
    · simp only [h2, if_true]
      exact RefillBucket_capacity b (n + b.tokens) t
    · simp only [h2, if_false]
      exact RefillBucket_capacity b (n + b.tokens) t

theorem RequestTokens_capacity (b : LeakyBucket) (n t : Int) :
    (RequestTokens b n t).2.capacity = b.capacity := by
  rw [RequestTokens]
  by_cases h1 : n > b.capacity
  · simp [h1]
  · simp only [h1, if_false]
    by_cases h2 : b.tokens - n ≥ 0
    · simp [h2]
    · simp only [h2, if_false]
      exact RequestTokensSlow_capacity _ n t

theorem TakeTokens_capacity (b : LeakyBucket) (n t : Int) :
    (TakeTokens b n t).capacity = b.capacity := by
  rw [TakeTokens]
  by_cases h1 : b.tokens - n < 0
  · simp only [h1, if_true]
    exact RefillBucket_capacity _ _ t
  · simp [h1]

theorem RequestTokens_tokens_le (b : LeakyBucket) (n t : Int)
    (hn : 0 ≤ n) (hb : b.tokens ≤ b.capacity) :
    (RequestTokens b n t).2.tokens ≤ b.capacity := by
  rw [RequestTokens]
  by_cases h1 : n > b.capacity
  · simpa [h1] using hb
  · simp only [h1, if_false]
    by_cases h2 : b.tokens - n ≥ 0
    · simp only [h2, if_true]
      omega
    · simp only [h2, if_false]
      rw [RequestTokensSlow]
      simp only
      by_cases h3 : b.tokens - n ≥ 0
      · exact absurd h3 h2
      · simp only [h3, if_false]
        have hre := RefillBucket_tokens_le
          { b with tokens := b.tokens - n } (n + (b.tokens - n)) t
        have hcap := RefillBucket_capacity
          { b with tokens := b.tokens - n } (n + (b.tokens - n)) t
        simp only at hre hcap
        rcases le_max_iff.mp hre with hle | hle
        · by_cases h4 : (RefillBucket { b with tokens := b.tokens - n }
              (n + (b.tokens - n)) t).1 ≥ 0
          · simp only [h4, if_true]; omega
          · simp only [h4, if_false]
            have hfst := RefillBucket_tokens_fst
              { b with tokens := b.tokens - n } (n + (b.tokens - n)) t
            simp only at hfst
            omega
        · by_cases h4 : (RefillBucket { b with tokens := b.tokens - n }
              (n + (b.tokens - n)) t).1 ≥ 0
          · simp only [h4, if_true]; omega
          · simp only [h4, if_false]
            have hfst := RefillBucket_tokens_fst
              { b with tokens := b.tokens - n } (n + (b.tokens - n)) t
            simp only at hfst
            omega

theorem TakeTokens_tokens_le (b : LeakyBucket) (n t : Int)
    (hn : 0 ≤ n) (hb : b.tokens ≤ b.capacity) :
    (TakeTokens b n t).tokens ≤ b.capacity := by
  rw [TakeTokens]
  by_cases h1 : b.tokens - n < 0
  · simp only [h1, if_true]
    have hre := RefillBucket_tokens_le
      { b with tokens := b.tokens - n } (b.tokens - n) t
    simp only at hre
    rcases le_max_iff.mp hre with hle | hle <;> omega
  · simp only [h1, if_false]
    omega

theorem runBucket_inv :
    ∀ (ops : List BucketOp) (b : LeakyBucket),
      (∀ op ∈ ops, 0 ≤ opAmount op) → b.tokens ≤ b.capacity →
      (runBucket b ops).tokens ≤ (runBucket b ops).capacity ∧
        (runBucket b ops).capacity = b.capacity := by
  intro ops
  induction ops with
  | nil => intro b hops hb; exact ⟨hb, rfl⟩
  | cons op rest ih =>
      intro b hops hb
      have hop : 0 ≤ opAmount op := hops op (List.mem_cons_self ..)
      have hrest : ∀ o ∈ rest, 0 ≤ opAmount o := fun o ho =>
        hops o (List.mem_cons_of_mem _ ho)
      have hstep : (applyOp b op).tokens ≤ (applyOp b op).capacity ∧
          (applyOp b op).capacity = b.capacity := by
        cases op with
        | request n t =>
            simp only [applyOp]
            refine ⟨?_, RequestTokens_capacity b n t⟩
            rw [RequestTokens_capacity b n t]
            exact RequestTokens_tokens_le b n t hop hb
        | take n t =>
            simp only [applyOp]
            refine ⟨?_, TakeTokens_capacity b n t⟩
            rw [TakeTokens_capacity b n t]
            exact TakeTokens_tokens_le b n t hop hb
      have hmain := ih (applyOp b op) hrest hstep.1
      constructor
      · simpa [runBucket, List.foldl_cons] using hmain.1
      · have h2 := hmain.2
        simp only [runBucket] at h2 ⊢
        rw [List.foldl_cons, h2, hstep.2]

/-- C10 (counterexample): the claim quantifies over every interleaving of
RequestTokens and TakeTokens; a request of a negative amount is such an
operation and it increments the count above the capacity: on a bucket of
capacity 10 a RequestTokens(-5) succeeds and leaves 15 tokens. -/
theorem C10_counterexample :
    ¬ ((runBucket (mkLeakyBucket 10 1 0) [BucketOp.request (-5) 0]).tokens ≤
        (mkLeakyBucket 10 1 0).capacity) := by
  decide

/-- C10 (amended): for every bucket and every interleaving of RequestTokens
and TakeTokens with nonnegative token amounts, the token count never
exceeds the capacity: it starts at the capacity, requests and takes only
decrement it, and RefillBucket caps what it adds at the capacity minus the
tokens available before the refill. -/
theorem C10_tokens_le_capacity (capacity fill_rate t0 : Int)
    (ops : List BucketOp) (hops : ∀ op ∈ ops, 0 ≤ opAmount op) :
    (runBucket (mkLeakyBucket capacity fill_rate t0) ops).tokens ≤ capacity := by
  have h := runBucket_inv ops (mkLeakyBucket capacity fill_rate t0) hops
    (le_refl capacity)
  have h2 := h.1
  rw [h.2] at h2
  exact h2

/-- C10 (witness): the amended bound applied to a capacity-10 bucket under
a request of 3 followed by a take of 5. -/
theorem C10_witness :
    (∀ op ∈ [BucketOp.request 3 0, BucketOp.take 5 1], 0 ≤ opAmount op) ∧
    (runBucket (mkLeakyBucket 10 1 0)
      [BucketOp.request 3 0, BucketOp.take 5 1]).tokens ≤ 10 :=
  ⟨by decide, C10_tokens_le_capacity 10 1 0
    [BucketOp.request 3 0, BucketOp.take 5 1] (by decide)⟩

end Bucket

/-! Embedding of conditional_breakpoint.cc.  The evaluation of the compiled
condition under the immutability tracer (PyEval_EvalCode plus the tracer
observations) is modelled as an oracle EvalOutcome supplied as input; the
quota state and the clock are explicit. -/

namespace CondBp

open Bucket

/-- Events surfaced to the breakpoint callback (enum class BreakpointEvent
of conditional_breakpoint.h). -/
inductive BreakpointEvent where
  | Hit
  | Error
  | GlobalConditionQuotaExceeded
  | BreakpointConditionQuotaExceeded
  | ConditionExpressionMutable
deriving DecidableEq, Repr

/-- Observable outcome of evaluating the condition under the immutability
tracer: truthiness of the result, the mutable-code flag, the tracer line
count and whether evaluation raised an exception. -/
structure EvalOutcome where
  result_truthy : Bool
  mutable_code_detected : Bool
  line_count : Nat
  eval_exception : Bool
deriving DecidableEq, Repr

/-- ConditionalBreakpoint::ApplyConditionQuota: the global quota is charged
through RequestTokens; on failure GlobalConditionQuotaExceeded is surfaced
and the per-breakpoint quota is left untouched; otherwise the
per-breakpoint quota is charged the same way. -/
def ApplyConditionQuota (global per : LeakyBucket) (time_ns now : Int) :
    List BreakpointEvent × LeakyBucket × LeakyBucket :=
  let rg := RequestTokens global time_ns now
  if rg.1 = false then
    ([BreakpointEvent.GlobalConditionQuotaExceeded], rg.2, per)
  else
    let rp := RequestTokens per time_ns now
    if rp.1 = false then
      ([BreakpointEvent.BreakpointConditionQuotaExceeded], rg.2, rp.2)
    else ([], rg.2, rp.2)

/-- ConditionalBreakpoint::EvaluateCondition: returns whether the
breakpoint should report a hit, the events surfaced through
NotifyBreakpointEvent, and the new quota states.  A missing condition is
an immediate hit; mutable code surfaces ConditionExpressionMutable; an
evaluation exception is swallowed; a truthy result is a hit; a falsy
result charges the line count to the quotas. -/
def EvaluateCondition (has_condition : Bool) (outcome : EvalOutcome)
    (global per : LeakyBucket) (now : Int) :
    Bool × List BreakpointEvent × LeakyBucket × LeakyBucket :=
  if has_condition = false then (true, [], global, per)
  else if outcome.mutable_code_detected then
    (false, [BreakpointEvent.ConditionExpressionMutable], global, per)
  else if outcome.eval_exception then (false, [], global, per)
  else if outcome.result_truthy then (true, [], global, per)
  else
    let r := ApplyConditionQuota global per (outcome.line_count : Int) now
    (false, r.1, r.2.1, r.2.2)

/-- ConditionalBreakpoint::OnBreakpointHit: evaluates the condition and
surfaces Hit only when it reports true. -/
def OnBreakpointHit (has_condition : Bool) (outcome : EvalOutcome)
    (global per : LeakyBucket) (now : Int) :
    List BreakpointEvent × LeakyBucket × LeakyBucket :=
  let r := EvaluateCondition has_condition outcome global per now
  if r.1 then (r.2.1 ++ [BreakpointEvent.Hit], r.2.2.1, r.2.2.2)
  else (r.2.1, r.2.2.1, r.2.2.2)

/-- C9 (counterexample): when the condition evaluates truthy (line count 5,
no mutable code, no exception), the code surfaces Hit and does not touch
the quotas at all: the global bucket keeps its 100 tokens instead of being
charged the 5 lines the claim says are subtracted after every
evaluation. -/
theorem C9_counterexample :
    (OnBreakpointHit true
        { result_truthy := true, mutable_code_detected := false,
          line_count := 5, eval_exception := false }
        (mkLeakyBucket 100 1000 0) (mkLeakyBucket 50 500 0) 0).1 =
      [BreakpointEvent.Hit] ∧
    ¬ ((OnBreakpointHit true
        { result_truthy := true, mutable_code_detected := false,
          line_count := 5, eval_exception := false }
        (mkLeakyBucket 100 1000 0) (mkLeakyBucket 50 500 0) 0).2.1.tokens =
      (mkLeakyBucket 100 1000 0).tokens - 5) := by
  constructor
  · decide
  · decide

/-- C9 (amended): with a condition present and a clean evaluation (no
mutable code, no exception): a truthy result surfaces Hit and leaves both
quotas untouched; a falsy result charges line_count to the global quota
via RequestTokens -- surfacing GlobalConditionQuotaExceeded and leaving
the per-breakpoint quota untouched when that fails -- and otherwise to the
per-breakpoint quota via RequestTokens, surfacing
BreakpointConditionQuotaExceeded when that fails; no Hit is surfaced for a
falsy result.  The quotas are charged through RequestTokens, not
TakeTokens, and only on falsy evaluations. -/
theorem C9_quota_application (outcome : EvalOutcome)
    (global per : LeakyBucket) (now : Int)
    (hmut : outcome.mutable_code_detected = false)
    (hexc : outcome.eval_exception = false) :
    (outcome.result_truthy = true →
      OnBreakpointHit true outcome global per now =
        ([BreakpointEvent.Hit], global, per)) ∧
    (outcome.result_truthy = false →
      OnBreakpointHit true outcome global per now =
        (let rg := RequestTokens global (outcome.line_count : Int) now
         if rg.1 = false then
           ([BreakpointEvent.GlobalConditionQuotaExceeded], rg.2, per)
         else
           let rp := RequestTokens per (outcome.line_count : Int) now
           if rp.1 = false then
             ([BreakpointEvent.BreakpointConditionQuotaExceeded], rg.2, rp.2)
           else ([], rg.2, rp.2))) := by
  constructor
  · intro htr
    simp [OnBreakpointHit, EvaluateCondition, hmut, hexc, htr]
  · intro htr
    simp only [OnBreakpointHit, EvaluateCondition, hmut, hexc, htr,
      Bool.false_eq_true, if_false, Bool.true_eq_false, ApplyConditionQuota]

/-- C9 (witness): the amended characterization applied to a falsy, clean
evaluation of 7 lines against fresh buckets of capacities 100 and 50: both
requests succeed, no event is surfaced and the buckets are the ones
returned by RequestTokens. -/
theorem C9_witness :
    (({ result_truthy := false, mutable_code_detected := false,
        line_count := 7, eval_exception := false } : EvalOutcome).result_truthy
      = false) ∧
    OnBreakpointHit true
        { result_truthy := false, mutable_code_detected := false,
          line_count := 7, eval_exception := false }
        (mkLeakyBucket 100 1000 0) (mkLeakyBucket 50 500 0) 0 =
      (let rg := RequestTokens (mkLeakyBucket 100 1000 0) 7 0
       if rg.1 = false then
         ([BreakpointEvent.GlobalConditionQuotaExceeded], rg.2,
          mkLeakyBucket 50 500 0)
       else
         let rp := RequestTokens (mkLeakyBucket 50 500 0) 7 0
         if rp.1 = false then
           ([BreakpointEvent.BreakpointConditionQuotaExceeded], rg.2, rp.2)
         else ([], rg.2, rp.2)) :=
  ⟨rfl,
   (C9_quota_application
     { result_truthy := false, mutable_code_detected := false,
       line_count := 7, eval_exception := false }
     (mkLeakyBucket 100 1000 0) (mkLeakyBucket 50 500 0) 0 rfl rfl).2 rfl⟩

end CondBp

/-! Opcode numbers of CPython 2.7, used by bytecode_breakpoint.cc, whose
implementation is specific to that interpreter. -/

namespace Py2

def POP_TOP : Nat := 1
def FOR_ITER : Nat := 93
def LOAD_CONST : Nat := 100
def JUMP_FORWARD : Nat := 110
def JUMP_IF_FALSE_OR_POP : Nat := 111
def JUMP_IF_TRUE_OR_POP : Nat := 112
def JUMP_ABSOLUTE : Nat := 113
def POP_JUMP_IF_FALSE : Nat := 114
def POP_JUMP_IF_TRUE : Nat := 115
def CONTINUE_LOOP : Nat := 119
def SETUP_LOOP : Nat := 120
def SETUP_EXCEPT : Nat := 121
def SETUP_FINALLY : Nat := 122
def CALL_FUNCTION : Nat := 131
def SETUP_WITH : Nat := 143
def EXTENDED_ARG : Nat := 145

/-- HAS_ARG of CPython 2.7: opcodes at or above HAVE_ARGUMENT = 90 carry a
16 bit argument. -/
def HAS_ARG (opcode : Nat) : Bool := 90 ≤ opcode

end Py2

/-! Embedding of bytecode_breakpoint.cc (the breakpoint registry and its
CPython 2.7 bytecode patching). -/

namespace Bp

open PyUtil

/-- Cap on the size of the constants tuple of a patchable code object
(kMaxCodeObjectConsts). -/
def kMaxCodeObjectConsts : Nat := 0xF000

/-- Byte image of struct MethodCallBytecode: LOAD_CONST of the callable,
CALL_FUNCTION with 0 arguments, POP_TOP; 7 bytes packed. -/
def methodCallBytecode (callable_const_index : Nat) : List Nat :=
  [Py2.LOAD_CONST, callable_const_index % 256, callable_const_index / 256 % 256,
   Py2.CALL_FUNCTION, 0, 0, Py2.POP_TOP]

/-- Python 2.7 instruction as read by this file: opcode, 16 or 32 bit
argument, and the EXTENDED_ARG flag (struct PythonInstruction). -/
structure PyInstr2 where
  opcode : Nat
  argument : Nat
  is_extended : Bool
deriving DecidableEq, Repr

/-- GetInstructionSize: 6 bytes extended, 3 bytes with argument, 1 byte
without. -/
def GetInstructionSize (instruction : PyInstr2) : Nat :=
  if instruction.is_extended then 6
  else if Py2.HAS_ARG instruction.opcode then 3
  else 1

/-- ReadInstruction of bytecode_breakpoint.cc: reads the (possibly
EXTENDED_ARG prefixed) instruction at pos; none models
kInvalidInstruction on underflow. -/
def ReadInstruction (bytecode : List Nat) (pos : Nat) : Option PyInstr2 :=
  if bytecode.length ≤ pos then none
  else
    let opcode := bytecode.getD pos 0
    if opcode = Py2.EXTENDED_ARG then
      if bytecode.length - pos < 6 then none
      else
        some { opcode := bytecode.getD (pos + 3) 0,
               argument :=
                 65536 * (bytecode.getD (pos + 1) 0 + 256 * bytecode.getD (pos + 2) 0) +
                   (bytecode.getD (pos + 4) 0 + 256 * bytecode.getD (pos + 5) 0),
               is_extended := true }
    else if Py2.HAS_ARG opcode then
      if bytecode.length - pos < 3 then none
      else
        some { opcode := opcode,
               argument := bytecode.getD (pos + 1) 0 + 256 * bytecode.getD (pos + 2) 0,
               is_extended := false }
    else some { opcode := opcode, argument := 0, is_extended := false }

/-- Bytes written by WriteInstruction of bytecode_breakpoint.cc. -/
def WriteInstructionBytes (instruction : PyInstr2) : List Nat :=
  if instruction.is_extended then
    [Py2.EXTENDED_ARG,
     instruction.argument / 65536 % 256, instruction.argument / 16777216 % 256,
     instruction.opcode,
     instruction.argument % 256, instruction.argument / 256 % 256]
  else if Py2.HAS_ARG instruction.opcode then
    [instruction.opcode, instruction.argument % 256, instruction.argument / 256 % 256]
  else [instruction.opcode]

/-- Result of the branch-target fixup of one instruction inside
InsertMethodCall: hard failure, no rewrite needed, or rewrite with the
updated instruction. -/
inductive FixupResult where
  | fail
  | keep
  | update (instruction : PyInstr2)
deriving DecidableEq, Repr

/-- Branch-target fixup switch of InsertMethodCall for the instruction at
pos, for an insertion of the 7-byte method call at the given offset. -/
def fixBranchInstruction (offset pos : Nat) (instruction : PyInstr2)
    (instruction_size current_fixed_offset : Nat) : FixupResult :=
  if instruction.opcode = Py2.FOR_ITER ∨ instruction.opcode = Py2.JUMP_FORWARD ∨
      instruction.opcode = Py2.SETUP_LOOP ∨ instruction.opcode = Py2.SETUP_EXCEPT ∨
      instruction.opcode = Py2.SETUP_FINALLY ∨ instruction.opcode = Py2.SETUP_WITH then
    let delta : Int :=
      if instruction.is_extended then toInt32 instruction.argument
      else toInt16 instruction.argument
    let target : Int := (pos : Int) + instruction_size + delta
    let target2 : Int := if target > offset then target + 7 else target
    let fixed_delta : Int := target2 - current_fixed_offset - instruction_size
    if delta ≠ fixed_delta then
      if instruction.is_extended then
        FixupResult.update { instruction with argument := toUInt32c fixed_delta }
      else if toInt16 (toUInt16c delta) ≠ delta then FixupResult.fail
      else FixupResult.update { instruction with argument := toUInt16c fixed_delta }
    else FixupResult.keep
  else if instruction.opcode = Py2.JUMP_IF_FALSE_OR_POP ∨
      instruction.opcode = Py2.JUMP_IF_TRUE_OR_POP ∨
      instruction.opcode = Py2.JUMP_ABSOLUTE ∨
      instruction.opcode = Py2.POP_JUMP_IF_FALSE ∨
      instruction.opcode = Py2.POP_JUMP_IF_TRUE ∨
      instruction.opcode = Py2.CONTINUE_LOOP then
    if toInt32 instruction.argument > (offset : Int) then
      let argument2 := (instruction.argument + 7) % 4294967296
      if instruction.is_extended = false ∧ argument2 > 0xFFFF then FixupResult.fail
      else FixupResult.update { instruction with argument := argument2 }
    else FixupResult.keep
  else FixupResult.keep

/-- Walk of InsertMethodCall: reads every instruction, validates the
offset, and rewrites branch instructions in place; none models the false
return (unreadable instruction or unsupported upgrade). -/
def insertWalk (offset : Nat) :
    Nat → List Nat → Nat → Bool → Option (List Nat × Bool)
  | 0, bytecode, _, valid => some (bytecode, valid)
  | fuel + 1, bytecode, pos, valid =>
      if pos < bytecode.length then
        let valid2 := valid || (pos == offset)
        match ReadInstruction bytecode pos with
        | none => none
        | some instruction =>
            let instruction_size := GetInstructionSize instruction
            let current_fixed_offset := if offset ≤ pos then pos + 7 else pos
            match fixBranchInstruction offset pos instruction instruction_size
                current_fixed_offset with
            | FixupResult.fail => none
            | FixupResult.keep =>
                insertWalk offset fuel bytecode (pos + instruction_size) valid2
            | FixupResult.update instruction2 =>
                insertWalk offset fuel
                  (overwriteAt bytecode pos (WriteInstructionBytes instruction2))
                  (pos + instruction_size) valid2
      else some (bytecode, valid)

/-- Line-table loop of InsertMethodCall: inserts the row (7, 0) before the
entry whose accumulated offset equals the insertion offset; none models
the "Failed to update line table" error. -/
def lnotabInsertRow (offset : Nat) : List Nat → Nat → Option (List Nat)
  | remaining, acc =>
      if acc = offset then some ([7, 0] ++ remaining)
      else
        match remaining with
        | a :: b :: rest =>
            (lnotabInsertRow offset rest (acc + a)).map (fun r => a :: b :: r)
        | _ => none

/-- InsertMethodCall of bytecode_breakpoint.cc: rewrites the bytecode to
invoke the callable at the given offset, fixing branch targets and adding
a line table row; none on failure. -/
def InsertMethodCall (bytecode : List Nat) (has_lnotab : Bool)
    (lnotab : List Nat) (offset callable_const_index : Nat) :
    Option (List Nat × List Nat) :=
  match insertWalk offset (bytecode.length + 1) bytecode 0 false with
  | none => none
  | some (bytecode2, offset_valid) =>
      if offset_valid then
        let bytecode3 := bytecode2.take offset ++
          methodCallBytecode callable_const_index ++ bytecode2.drop offset
        if has_lnotab then
          match lnotabInsertRow offset lnotab 0 with
          | none => none
          | some lnotab2 => some (bytecode3, lnotab2)
        else some (bytecode3, lnotab)
      else none

/-! The registry: BytecodeBreakpoint and its operations. -/

/-- The four attributes of a code object that the registry swaps together,
plus co_firstlineno, which it reads for line resolution. -/
structure CodeFields where
  co_code : List Nat
  co_consts : List Nat
  co_lnotab : List Nat
  co_stacksize : Int
  co_firstlineno : Nat
deriving DecidableEq, Repr

/-- Information about one breakpoint (struct Breakpoint).  Python objects
(the hit callable) are opaque identifiers. -/
structure Breakpoint where
  code_object : Nat
  offset : Nat
  hit_callable : Nat
  cookie : Int
deriving DecidableEq, Repr

/-- Per-code-object patch state (struct CodeObjectBreakpoints): the
descending offset → breakpoint multimap, the count of parked zombie
references and the original code object attributes. -/
structure CodeObjectBreakpoints where
  code_object : Nat
  breakpoints : List (Nat × Breakpoint)
  zombie_refs : Nat
  original_stacksize : Int
  original_consts : List Nat
  original_code : List Nat
  original_lnotab : List Nat
deriving DecidableEq, Repr

/-- State of a BytecodeBreakpoint registry together with the code objects
it may touch (the fields function). -/
structure RegistryState where
  fields : Nat → CodeFields
  patches : List (Nat × CodeObjectBreakpoints)
  cookie_map : List (Int × Breakpoint)
  cookie_counter : Int

/-- Replaces the value of every entry of an association list holding the
given key. -/
def updateA {α : Type} (l : List (Nat × α)) (k : Nat) (v : α) : List (Nat × α) :=
  l.map (fun e => if e.1 = k then (k, v) else e)

/-- Insertion into the descending multimap: std::multimap::insert places
the new pair after all entries with a greater or equal key. -/
def insertDesc (l : List (Nat × Breakpoint)) (k : Nat) (bp : Breakpoint) :
    List (Nat × Breakpoint) :=
  match l with
  | [] => [(k, bp)]
  | e :: rest => if k ≤ e.1 then e :: insertDesc rest k bp else (k, bp) :: e :: rest

/-- Accumulator of the patch loop of PatchCodeObject. -/
structure PatchAcc where
  bytecode : List Nat
  lnotab : List Nat
  callbacks : List Nat
  const_index : Nat
deriving DecidableEq, Repr

/-- One iteration of the patch loop: the hit callable is appended to the
constants callbacks unconditionally, then the bytecode insertion is
attempted and swapped in only on success (on failure the error callback
fires and the old working copy is kept). -/
def patchStep (acc : PatchAcc) (entry : Nat × Breakpoint) : PatchAcc :=
  let callbacks2 := acc.callbacks ++ [entry.2.hit_callable]
  match InsertMethodCall acc.bytecode true acc.lnotab entry.1 acc.const_index with
  | some r =>
      { bytecode := r.1, lnotab := r.2, callbacks := callbacks2,
        const_index := acc.const_index + 1 }
  | none =>
      { acc with callbacks := callbacks2, const_index := acc.const_index + 1 }

/-- BytecodeBreakpoint::PatchCodeObject: restores the original attributes
when no breakpoints remain, otherwise re-patches from the originals,
appending one hit callable per registered breakpoint to the constants and
bumping the stack size; the replaced objects are parked as zombie
references (3 per call: constants, code, line table). -/
def patchCodeObject (flds : CodeFields) (code : CodeObjectBreakpoints) :
    CodeFields × CodeObjectBreakpoints :=
  if code.breakpoints = [] then
    ({ co_code := code.original_code,
       co_consts := code.original_consts,
       co_lnotab := code.original_lnotab,
       co_stacksize := code.original_stacksize,
       co_firstlineno := flds.co_firstlineno },
     { code with zombie_refs := code.zombie_refs + 3 })
  else
    let r := code.breakpoints.foldl patchStep
      { bytecode := code.original_code, lnotab := code.original_lnotab,
        callbacks := [], const_index := code.original_consts.length }
    ({ co_code := r.bytecode,
       co_consts := code.original_consts ++ r.callbacks,
       co_lnotab := r.lnotab,
       co_stacksize := code.original_stacksize + 1,
       co_firstlineno := flds.co_firstlineno },
     { code with zombie_refs := code.zombie_refs + 3 })

/-- BytecodeBreakpoint::PreparePatchCodeObject: returns the existing patch
record, or captures the current attributes of the code object as the
originals; none when the constants tuple is too large to patch. -/
def preparePatch (s : RegistryState) (c : Nat) :
    Option (RegistryState × CodeObjectBreakpoints) :=
  match s.patches.lookup c with
  | some data => some (s, data)
  | none =>
      let flds := s.fields c
      if kMaxCodeObjectConsts ≤ flds.co_consts.length then none
      else
        let data : CodeObjectBreakpoints :=
          { code_object := c, breakpoints := [], zombie_refs := 0,
            original_stacksize := flds.co_stacksize,
            original_consts := flds.co_consts,
            original_code := flds.co_code,
            original_lnotab := flds.co_lnotab }
        some ({ s with patches := s.patches ++ [(c, data)] }, data)

/-- Resolution of a source line to a bytecode offset through the lines
enumerator run on the original line table. -/
def resolveLineOffset (firstlineno : Nat) (lnotab : List Nat) (line : Nat) :
    Option Nat :=
  ((decodeVisible firstlineno lnotab).find? (fun s => s.2 == line)).map (·.1)

/-- BytecodeBreakpoint::SetBreakpoint: prepares the patch record, resolves
the line against the original line table, registers the breakpoint in the
descending multimap and the cookie map, and re-patches the code object.
Returns the new state and the cookie (-1 on failure). -/
def SetBreakpoint (s : RegistryState) (c line callable : Nat) :
    RegistryState × Int :=
  match preparePatch s c with
  | none => (s, -1)
  | some (s1, data) =>
      match resolveLineOffset ((s1.fields c).co_firstlineno)
          data.original_lnotab line with
      | none => (s1, -1)
      | some offset =>
          let cookie := s1.cookie_counter
          let bp : Breakpoint :=
            { code_object := c, offset := offset, hit_callable := callable,
              cookie := cookie }
          let data2 := { data with breakpoints := insertDesc data.breakpoints offset bp }
          let pr := patchCodeObject (s1.fields c) data2
          ({ fields := fun x => if x = c then pr.1 else s1.fields x,
             patches := updateA s1.patches c pr.2,
             cookie_map := s1.cookie_map ++ [(cookie, bp)],
             cookie_counter := cookie + 1 }, cookie)

/-- BytecodeBreakpoint::ClearBreakpoint: removes the breakpoint from its
code object multimap, re-patches, deletes the patch record when no
breakpoints and no zombie references remain, and forgets the cookie. -/
def ClearBreakpoint (s : RegistryState) (cookie : Int) : RegistryState :=
  match s.cookie_map.lookup cookie with
  | none => s
  | some bp =>
      match s.patches.lookup bp.code_object with
      | none =>
          { s with cookie_map := s.cookie_map.filter (fun e => ¬ e.1 = cookie) }
      | some data =>
          let data2 :=
            { data with breakpoints :=
                data.breakpoints.filter (fun e => ¬ e.2.cookie = cookie) }
          let pr := patchCodeObject (s.fields bp.code_object) data2
          let patches2 :=
            if pr.2.breakpoints = [] ∧ pr.2.zombie_refs = 0 then
              s.patches.filter (fun e => ¬ e.1 = bp.code_object)
            else updateA s.patches bp.code_object pr.2
          { fields := fun x => if x = bp.code_object then pr.1 else s.fields x,
            patches := patches2,
            cookie_map := s.cookie_map.filter (fun e => ¬ e.1 = cookie),
            cookie_counter := s.cookie_counter }

/-- One iteration of the Detach loop: clears the breakpoints of one patch
record and re-patches its code object (which restores the originals). -/
def restoreEntry (f : Nat → CodeFields) (entry : Nat × CodeObjectBreakpoints) :
    Nat → CodeFields :=
  let pr := patchCodeObject (f entry.1) { entry.2 with breakpoints := [] }
  fun x => if x = entry.1 then pr.1 else f x

/-- BytecodeBreakpoint::Detach: empties the breakpoints of every tracked
code object and re-patches it (which restores the original attributes),
then discards all registry state. -/
def Detach (s : RegistryState) : RegistryState :=
  { fields := s.patches.foldl restoreEntry s.fields,
    patches := [],
    cookie_map := [],
    cookie_counter := s.cookie_counter }

/-- Operations of the registry driven by a client: creating (and thereby
activating) a breakpoint and clearing one by cookie. -/
inductive RegOp where
  | set (code : Nat) (line : Nat) (callable : Nat)
  | clear (cookie : Int)
deriving DecidableEq, Repr

/-- Applies one registry operation. -/
def applyRegOp (s : RegistryState) : RegOp → RegistryState
  | .set c line cb => (SetBreakpoint s c line cb).1
  | .clear k => ClearBreakpoint s k

/-- Initial registry state over an environment of code objects; the cookie
counter starts at 1000000. -/
def initState (env : Nat → CodeFields) : RegistryState :=
  { fields := env, patches := [], cookie_map := [], cookie_counter := 1000000 }

/-- Runs a sequence of registry operations from the initial state. -/
def runRegistry (env : Nat → CodeFields) (ops : List RegOp) : RegistryState :=
  ops.foldl applyRegOp (initState env)

/-! Association list lemmas for the patches and cookie maps. -/

theorem lookup_cons_self {β : Type} (a : Nat) (b : β) (rest : List (Nat × β)) :
    ((a, b) :: rest).lookup a = some b := by
  show (match a == a with
    | true => some b
    | false => rest.lookup a) = some b
  rw [beq_self_eq_true]

theorem lookup_cons_ne {β : Type} (a k : Nat) (b : β) (rest : List (Nat × β))
    (h : k ≠ a) : ((a, b) :: rest).lookup k = rest.lookup k := by
  show (match k == a with
    | true => some b
    | false => rest.lookup k) = rest.lookup k
  rw [show (k == a) = false from beq_eq_false_iff_ne.mpr h]

theorem lookup_cons_split {β : Type} (a k : Nat) (b : β) (rest : List (Nat × β)) :
    ((a, b) :: rest).lookup k =
      if k = a then some b else rest.lookup k := by
  by_cases h : k = a
  · subst h; rw [if_pos rfl]; exact lookup_cons_self k b rest
  · rw [if_neg h]; exact lookup_cons_ne a k b rest h

theorem lookup_append_none {β : Type} (l l' : List (Nat × β)) (k : Nat)
    (h : l.lookup k = none) : (l ++ l').lookup k = l'.lookup k := by
  induction l with
  | nil => simp
  | cons e rest ih =>
      obtain ⟨a, b⟩ := e
      rw [lookup_cons_split] at h
      by_cases hk : k = a
      · rw [if_pos hk] at h; exact absurd h (by simp)
      · rw [if_neg hk] at h
        rw [List.cons_append, lookup_cons_split, if_neg hk]
        exact ih h

theorem lookup_append_some {β : Type} (l l' : List (Nat × β)) (k : Nat) (v : β)
    (h : l.lookup k = some v) : (l ++ l').lookup k = some v := by
  induction l with
  | nil => simp at h
  | cons e rest ih =>
      obtain ⟨a, b⟩ := e
      rw [lookup_cons_split] at h
      rw [List.cons_append, lookup_cons_split]
      by_cases hk : k = a
      · rwa [if_pos hk] at h ⊢
      · rw [if_neg hk] at h ⊢
        exact ih h

theorem lookup_mem {β : Type} (l : List (Nat × β)) (k : Nat) (v : β)
    (h : l.lookup k = some v) : (k, v) ∈ l := by
  induction l with
  | nil => simp at h
  | cons e rest ih =>
      obtain ⟨a, b⟩ := e
      rw [lookup_cons_split] at h
      by_cases hk : k = a
      · rw [if_pos hk] at h
        subst hk
        obtain rfl : b = v := by simpa using h
        exact List.mem_cons_self ..
      · rw [if_neg hk] at h
        exact List.mem_cons_of_mem _ (ih h)

theorem updateA_cons {β : Type} (a k : Nat) (b v : β) (rest : List (Nat × β)) :
    updateA ((a, b) :: rest) k v =
      (if a = k then (k, v) else (a, b)) :: updateA rest k v := rfl

theorem lookup_updateA_self {β : Type} (l : List (Nat × β)) (k : Nat) (v d : β)
    (h : l.lookup k = some d) : (updateA l k v).lookup k = some v := by
  induction l with
  | nil => simp at h
  | cons e rest ih =>
      obtain ⟨a, b⟩ := e
      rw [lookup_cons_split] at h
      rw [updateA_cons]
      by_cases hk : k = a
      · subst hk
        rw [if_pos rfl]
        exact lookup_cons_self ..
      · rw [if_neg hk] at h
        rw [if_neg (fun he => hk he.symm)]
        rw [lookup_cons_split, if_neg hk]
        exact ih h

theorem lookup_updateA_ne {β : Type} (l : List (Nat × β)) (k k' : Nat) (v : β)
    (h : k' ≠ k) : (updateA l k v).lookup k' = l.lookup k' := by
  induction l with
  | nil => simp [updateA]
  | cons e rest ih =>
      obtain ⟨a, b⟩ := e
      rw [updateA_cons]
      by_cases ha : a = k
      · rw [if_pos ha]
        rw [lookup_cons_split, if_neg h, lookup_cons_split,
          if_neg (fun he => h (he.trans ha))]
        exact ih
      · rw [if_neg ha]
        rw [lookup_cons_split, lookup_cons_split]
        by_cases hk : k' = a
        · rw [if_pos hk, if_pos hk]
        · rw [if_neg hk, if_neg hk]
          exact ih

theorem lookup_updateA_none {β : Type} (l : List (Nat × β)) (k k' : Nat) (v : β)
    (h : (updateA l k v).lookup k' = none) : l.lookup k' = none := by
  by_cases hk : k' = k
  · subst hk
    cases hl : l.lookup k' with
    | none => rfl
    | some d => rw [lookup_updateA_self l k' v d hl] at h; exact absurd h (by simp)
  · rw [lookup_updateA_ne l k k' v hk] at h; exact h

theorem mem_updateA {β : Type} (l : List (Nat × β)) (k : Nat) (v : β) (p : Nat × β)
    (h : p ∈ updateA l k v) : p ∈ l ∨ p = (k, v) := by
  induction l with
  | nil => simp [updateA] at h
  | cons e rest ih =>
      simp only [updateA, List.map_cons, List.mem_cons] at h
      rcases h with h | h
      · by_cases he : e.1 = k
        · simp only [he, if_true] at h
          exact Or.inr h
        · simp only [he, if_false] at h
          exact Or.inl (h ▸ List.mem_cons_self ..)
      · rcases ih h with h2 | h2
        · exact Or.inl (List.mem_cons_of_mem _ h2)
        · exact Or.inr h2

theorem lookup_filterKey_self {β : Type} (l : List (Nat × β)) (k : Nat) :
    (l.filter (fun e => ¬ e.1 = k)).lookup k = none := by
  induction l with
  | nil => simp
  | cons e rest ih =>
      obtain ⟨a, b⟩ := e
      by_cases he : a = k
      · rw [List.filter_cons, if_neg (by simpa using he)]
        exact ih
      · rw [List.filter_cons, if_pos (by simpa using he)]
        rw [lookup_cons_split, if_neg (fun hk => he hk.symm)]
        exact ih

theorem lookup_filterKey_ne {β : Type} (l : List (Nat × β)) (k k' : Nat)
    (h : k' ≠ k) : (l.filter (fun e => ¬ e.1 = k)).lookup k' = l.lookup k' := by
  induction l with
  | nil => simp
  | cons e rest ih =>
      obtain ⟨a, b⟩ := e
      by_cases he : a = k
      · rw [List.filter_cons, if_neg (by simpa using he)]
        rw [lookup_cons_split, if_neg (fun hk => h (hk.trans he))]
        exact ih
      · rw [List.filter_cons, if_pos (by simpa using he)]
        rw [lookup_cons_split, lookup_cons_split]
        by_cases hk : k' = a
        · rw [if_pos hk, if_pos hk]
        · rw [if_neg hk, if_neg hk]
          exact ih

theorem lookup_none_of_not_mem_keys {β : Type} (l : List (Nat × β)) (k : Nat)
    (h : k ∉ l.map Prod.fst) : l.lookup k = none := by
  induction l with
  | nil => simp
  | cons e rest ih =>
      obtain ⟨a, b⟩ := e
      simp only [List.map_cons, List.mem_cons] at h
      push_neg at h
      rw [lookup_cons_split, if_neg h.1]
      exact ih h.2

theorem lookup_append_none_left {β : Type} (l l' : List (Nat × β)) (k : Nat)
    (h : (l ++ l').lookup k = none) : l.lookup k = none := by
  cases hl : l.lookup k with
  | none => rfl
  | some v => rw [lookup_append_some l l' k v hl] at h; exact absurd h (by simp)

/-! Shape lemmas for PatchCodeObject and the Detach restore loop. -/

theorem CodeFields.extEq (a b : CodeFields) (h1 : a.co_code = b.co_code)
    (h2 : a.co_consts = b.co_consts) (h3 : a.co_lnotab = b.co_lnotab)
    (h4 : a.co_stacksize = b.co_stacksize)
    (h5 : a.co_firstlineno = b.co_firstlineno) : a = b := by
  cases a; cases b; simp_all

theorem patchStep_callbacks_one (acc : PatchAcc) (e : Nat × Breakpoint) :
    (patchStep acc e).callbacks = acc.callbacks ++ [e.2.hit_callable] := by
  unfold patchStep
  cases InsertMethodCall acc.bytecode true acc.lnotab e.1 acc.const_index <;> rfl

theorem foldl_patchStep_callbacks :
    ∀ (l : List (Nat × Breakpoint)) (acc : PatchAcc),
      (l.foldl patchStep acc).callbacks =
        acc.callbacks ++ l.map (fun e => e.2.hit_callable) := by
  intro l
  induction l with
  | nil => intro acc; simp
  | cons e rest ih =>
      intro acc
      rw [List.foldl_cons, ih, patchStep_callbacks_one]
      simp

theorem patchCodeObject_restore (flds : CodeFields) (code : CodeObjectBreakpoints)
    (h : code.breakpoints = []) :
    patchCodeObject flds code =
      ({ co_code := code.original_code, co_consts := code.original_consts,
         co_lnotab := code.original_lnotab,
         co_stacksize := code.original_stacksize,
         co_firstlineno := flds.co_firstlineno },
       { code with zombie_refs := code.zombie_refs + 3 }) := by
  rw [patchCodeObject, if_pos h]

theorem patchCodeObject_snd (flds : CodeFields) (code : CodeObjectBreakpoints) :
    (patchCodeObject flds code).2 =
      { code with zombie_refs := code.zombie_refs + 3 } := by
  rw [patchCodeObject]
  split <;> rfl

theorem patchCodeObject_flno (flds : CodeFields) (code : CodeObjectBreakpoints) :
    (patchCodeObject flds code).1.co_firstlineno = flds.co_firstlineno := by
  rw [patchCodeObject]
  split <;> rfl

theorem patchCodeObject_patch_consts (flds : CodeFields)
    (code : CodeObjectBreakpoints) (h : code.breakpoints ≠ []) :
    (patchCodeObject flds code).1.co_consts =
      code.original_consts ++ code.breakpoints.map (fun e => e.2.hit_callable) := by
  rw [patchCodeObject, if_neg h]
  simp only [foldl_patchStep_callbacks, List.nil_append]

theorem insertDesc_ne_nil (l : List (Nat × Breakpoint)) (k : Nat)
    (bp : Breakpoint) : insertDesc l k bp ≠ [] := by
  cases l with
  | nil => simp [insertDesc]
  | cons e rest =>
      rw [insertDesc]
      split <;> simp

theorem mem_insertDesc (l : List (Nat × Breakpoint)) (k : Nat) (bp : Breakpoint)
    (b : Nat × Breakpoint) (h : b ∈ insertDesc l k bp) : b ∈ l ∨ b = (k, bp) := by
  induction l with
  | nil =>
      rw [insertDesc] at h
      exact Or.inr (List.mem_singleton.mp h)
  | cons e rest ih =>
      rw [insertDesc] at h
      by_cases hk : k ≤ e.1
      · rw [if_pos hk] at h
        rcases List.mem_cons.mp h with h | h
        · exact Or.inl (h ▸ List.mem_cons_self ..)
        · rcases ih h with h2 | h2
          · exact Or.inl (List.mem_cons_of_mem _ h2)
          · exact Or.inr h2
      · rw [if_neg hk] at h
        rcases List.mem_cons.mp h with h | h
        · exact Or.inr h
        · exact Or.inl h

theorem insertDesc_sorted (l : List (Nat × Breakpoint)) (k : Nat)
    (bp : Breakpoint) (h : l.Pairwise (fun a b => b.1 ≤ a.1)) :
    (insertDesc l k bp).Pairwise (fun a b => b.1 ≤ a.1) := by
  induction l with
  | nil => simp [insertDesc]
  | cons e rest ih =>
      rcases List.pairwise_cons.mp h with ⟨he, hrest⟩
      rw [insertDesc]
      by_cases hk : k ≤ e.1
      · rw [if_pos hk]
        refine List.pairwise_cons.mpr ⟨?_, ih hrest⟩
        intro b hb
        rcases mem_insertDesc rest k bp b hb with h2 | h2
        · exact he b h2
        · rw [h2]; exact hk
      · rw [if_neg hk]
        refine List.pairwise_cons.mpr ⟨?_, h⟩
        intro b hb
        rcases List.mem_cons.mp hb with h2 | h2
        · rw [h2]; omega
        · exact le_trans (he b h2) (by omega)

theorem restoreEntry_apply (f : Nat → CodeFields)
    (entry : Nat × CodeObjectBreakpoints) (x : Nat) :
    restoreEntry f entry x =
      if x = entry.1 then
        { co_code := entry.2.original_code, co_consts := entry.2.original_consts,
          co_lnotab := entry.2.original_lnotab,
          co_stacksize := entry.2.original_stacksize,
          co_firstlineno := (f entry.1).co_firstlineno }
      else f x := by
  show (if x = entry.1 then
      (patchCodeObject (f entry.1) { entry.2 with breakpoints := [] }).1
    else f x) = _
  rw [patchCodeObject_restore (f entry.1) { entry.2 with breakpoints := [] } rfl]

theorem detach_fold (env : Nat → CodeFields) :
    ∀ (l : List (Nat × CodeObjectBreakpoints)) (f : Nat → CodeFields),
      (∀ x, (f x).co_firstlineno = (env x).co_firstlineno) →
      (∀ p ∈ l, p.2.original_code = (env p.1).co_code ∧
        p.2.original_consts = (env p.1).co_consts ∧
        p.2.original_lnotab = (env p.1).co_lnotab ∧
        p.2.original_stacksize = (env p.1).co_stacksize) →
      ∀ x, l.foldl restoreEntry f x =
        if x ∈ l.map Prod.fst then env x else f x := by
  intro l
  induction l with
  | nil => intro f _ _ x; simp
  | cons e rest ih =>
      intro f hfl horig x
      obtain ⟨c, data⟩ := e
      have hcd := horig (c, data) (List.mem_cons_self ..)
      have hfl2 : ∀ y, (restoreEntry f (c, data) y).co_firstlineno =
          (env y).co_firstlineno := by
        intro y
        rw [restoreEntry_apply]
        by_cases hy : y = c
        · rw [if_pos hy]
          show (f c).co_firstlineno = (env y).co_firstlineno
          rw [hfl c, hy]
        · rw [if_neg hy]; exact hfl y
      rw [List.foldl_cons,
        ih (restoreEntry f (c, data)) hfl2
          (fun p hp => horig p (List.mem_cons_of_mem _ hp)) x]
      by_cases hr : x ∈ rest.map Prod.fst
      · rw [if_pos hr, if_pos (by simp [hr])]
      · rw [if_neg hr, restoreEntry_apply]
        by_cases hx : x = c
        · rw [if_pos hx, if_pos (by simp [hx])]
          refine CodeFields.extEq _ _ ?_ ?_ ?_ ?_ ?_
          · show data.original_code = (env x).co_code
            rw [hx]; exact hcd.1
          · show data.original_consts = (env x).co_consts
            rw [hx]; exact hcd.2.1
          · show data.original_lnotab = (env x).co_lnotab
            rw [hx]; exact hcd.2.2.1
          · show data.original_stacksize = (env x).co_stacksize
            rw [hx]; exact hcd.2.2.2
          · show (f c).co_firstlineno = (env x).co_firstlineno
            rw [hfl c, hx]
        · rw [if_neg hx, if_neg (by simp [hx, hr])]

/-- Invariant of the registry over an environment of untouched code
objects: first line numbers are never changed, every patch record stores
the originals of its code object, unpatched code objects are untouched,
multimaps are sorted in descending offset order, and the constants of a
code object patched with breakpoints are the originals followed by one hit
callable per breakpoint. -/
structure RegInv (env : Nat → CodeFields) (s : RegistryState) : Prop where
  flno : ∀ c, (s.fields c).co_firstlineno = (env c).co_firstlineno
  orig : ∀ p ∈ s.patches, p.2.original_code = (env p.1).co_code ∧
    p.2.original_consts = (env p.1).co_consts ∧
    p.2.original_lnotab = (env p.1).co_lnotab ∧
    p.2.original_stacksize = (env p.1).co_stacksize
  untouched : ∀ c, s.patches.lookup c = none → s.fields c = env c
  sorted : ∀ p ∈ s.patches, p.2.breakpoints.Pairwise (fun a b => b.1 ≤ a.1)
  patched : ∀ c data, s.patches.lookup c = some data → data.breakpoints ≠ [] →
    (s.fields c).co_consts = data.original_consts ++
      data.breakpoints.map (fun e => e.2.hit_callable)

theorem regInv_init (env : Nat → CodeFields) : RegInv env (initState env) := by
  refine ⟨fun c => rfl, ?_, fun c _ => rfl, ?_, ?_⟩
  · intro p hp; exact absurd hp (List.not_mem_nil p)
  · intro p hp; exact absurd hp (List.not_mem_nil p)
  · intro c d h; simp [initState] at h

/-- Re-patching an already tracked code object with a sorted breakpoint
multimap preserves the registry invariant (shared step of SetBreakpoint
and ClearBreakpoint). -/
theorem regInv_repatch (env : Nat → CodeFields) (s : RegistryState)
    (inv : RegInv env s) (c : Nat) (data : CodeObjectBreakpoints)
    (hl : s.patches.lookup c = some data) (bps2 : List (Nat × Breakpoint))
    (hsort : bps2.Pairwise (fun a b => b.1 ≤ a.1))
    (cm : List (Int × Breakpoint)) (cc : Int) :
    RegInv env
      { fields := fun x => if x = c then
          (patchCodeObject (s.fields c) { data with breakpoints := bps2 }).1
          else s.fields x,
        patches := updateA s.patches c
          (patchCodeObject (s.fields c) { data with breakpoints := bps2 }).2,
        cookie_map := cm, cookie_counter := cc } := by
  have hmem : (c, data) ∈ s.patches := lookup_mem _ _ _ hl
  have horig := inv.orig (c, data) hmem
  have hsnd := patchCodeObject_snd (s.fields c) { data with breakpoints := bps2 }
  refine ⟨?_, ?_, ?_, ?_, ?_⟩
  · intro x
    show (if x = c then _ else s.fields x).co_firstlineno = _
    by_cases hx : x = c
    · rw [if_pos hx, patchCodeObject_flno, hx]; exact inv.flno c
    · rw [if_neg hx]; exact inv.flno x
  · intro p hp
    rcases mem_updateA _ _ _ _ hp with h | h
    · exact inv.orig p h
    · rw [h]
      simp only [hsnd]
      exact horig
  · intro x hx
    have hx' : (updateA s.patches c
        (patchCodeObject (s.fields c) { data with breakpoints := bps2 }).2).lookup
        x = none := hx
    have hxc : x ≠ c := by
      intro he
      rw [he, lookup_updateA_self s.patches c _ data hl] at hx'
      exact absurd hx' (by simp)
    have hsp : s.patches.lookup x = none := lookup_updateA_none _ _ _ _ hx'
    show (if x = c then _ else s.fields x) = env x
    rw [if_neg hxc]
    exact inv.untouched x hsp
  · intro p hp
    rcases mem_updateA _ _ _ _ hp with h | h
    · exact inv.sorted p h
    · rw [h]
      simp only [hsnd]
      exact hsort
  · intro x d hx hne
    have hx' : (updateA s.patches c
        (patchCodeObject (s.fields c) { data with breakpoints := bps2 }).2).lookup
        x = some d := hx
    by_cases hxc : x = c
    · subst hxc
      rw [lookup_updateA_self s.patches x _ data hl] at hx'
      have hd := Option.some.inj hx'
      show (if x = x then (patchCodeObject (s.fields x)
          { data with breakpoints := bps2 }).1 else s.fields x).co_consts = _
      rw [if_pos rfl]
      have hne' : ({ data with breakpoints := bps2 } :
          CodeObjectBreakpoints).breakpoints ≠ [] := by
        rw [← hd] at hne
        rw [hsnd] at hne
        exact hne
      rw [patchCodeObject_patch_consts _ _ hne', ← hd, hsnd]
    · rw [lookup_updateA_ne s.patches c x _ hxc] at hx'
      show (if x = c then _ else s.fields x).co_consts = _
      rw [if_neg hxc]
      exact inv.patched x d hx' hne

theorem preparePatch_inv (env : Nat → CodeFields) (s : RegistryState)
    (inv : RegInv env s) (c : Nat) (s1 : RegistryState)
    (data : CodeObjectBreakpoints) (h : preparePatch s c = some (s1, data)) :
    RegInv env s1 ∧ s1.patches.lookup c = some data ∧ s1.fields = s.fields := by
  rcases hl : s.patches.lookup c with _ | d
  · simp only [preparePatch, hl] at h
    by_cases hk : kMaxCodeObjectConsts ≤ (s.fields c).co_consts.length
    · rw [if_pos hk] at h; exact absurd h (by simp)
    · rw [if_neg hk, Option.some.injEq, Prod.mk.injEq] at h
      obtain ⟨h1, h2⟩ := h
      subst h1; subst h2
      have hfe : s.fields c = env c := inv.untouched c hl
      refine ⟨⟨inv.flno, ?_, ?_, ?_, ?_⟩, ?_, rfl⟩
      · intro p hp
        rcases List.mem_append.mp hp with hp | hp
        · exact inv.orig p hp
        · rw [List.mem_singleton.mp hp]
          exact ⟨show (s.fields c).co_code = _ by rw [hfe],
            show (s.fields c).co_consts = _ by rw [hfe],
            show (s.fields c).co_lnotab = _ by rw [hfe],
            show (s.fields c).co_stacksize = _ by rw [hfe]⟩
      · intro x hx
        exact inv.untouched x (lookup_append_none_left _ _ _ hx)
      · intro p hp
        rcases List.mem_append.mp hp with hp | hp
        · exact inv.sorted p hp
        · rw [List.mem_singleton.mp hp]
          exact List.Pairwise.nil
      · intro x d hx hne
        by_cases hxc : x = c
        · subst hxc
          rw [lookup_append_none s.patches _ x hl, lookup_cons_self] at hx
          rw [← Option.some.inj hx] at hne
          exact absurd rfl hne
        · cases hsx : s.patches.lookup x with
          | some v =>
              rw [lookup_append_some s.patches _ x v hsx] at hx
              rw [← Option.some.inj hx]
              exact inv.patched x v hsx (by rw [Option.some.inj hx]; exact hne)
          | none =>
              rw [lookup_append_none s.patches _ x hsx, lookup_cons_split,
                if_neg hxc] at hx
              exact absurd hx (by simp)
      · rw [show ({ s with patches := s.patches ++ [(c, _)] } :
            RegistryState).patches = s.patches ++ _ from rfl,
          lookup_append_none s.patches _ c hl]
        exact lookup_cons_self ..
  · simp only [preparePatch, hl, Option.some.injEq, Prod.mk.injEq] at h
    obtain ⟨h1, h2⟩ := h
    subst h1; subst h2
    exact ⟨inv, hl, rfl⟩

theorem regInv_set (env : Nat → CodeFields) (s : RegistryState)
    (inv : RegInv env s) (c line cb : Nat) :
    RegInv env (SetBreakpoint s c line cb).1 := by
  rcases hp : preparePatch s c with _ | ⟨s1, data⟩
  · simp only [SetBreakpoint, hp]; exact inv
  · obtain ⟨inv1, hl, -⟩ := preparePatch_inv env s inv c s1 data hp
    simp only [SetBreakpoint, hp]
    rcases hro : resolveLineOffset ((s1.fields c).co_firstlineno)
        data.original_lnotab line with _ | offset
    · simp only [hro]; exact inv1
    · simp only [hro]
      exact regInv_repatch env s1 inv1 c data hl _
        (insertDesc_sorted _ _ _ (inv1.sorted (c, data) (lookup_mem _ _ _ hl)))
        _ _

theorem regInv_clear (env : Nat → CodeFields) (s : RegistryState)
    (inv : RegInv env s) (k : Int) : RegInv env (ClearBreakpoint s k) := by
  rcases hck : s.cookie_map.lookup k with _ | bp
  · simp only [ClearBreakpoint, hck]; exact inv
  · simp only [ClearBreakpoint, hck]
    rcases hpc : s.patches.lookup bp.code_object with _ | data
    · simp only [hpc]
      exact ⟨inv.flno, inv.orig, inv.untouched, inv.sorted, inv.patched⟩
    · simp only [hpc]
      have hzr : ¬((patchCodeObject (s.fields bp.code_object)
          { data with breakpoints :=
              data.breakpoints.filter (fun e => ¬ e.2.cookie = k) }).2.breakpoints
            = [] ∧
          (patchCodeObject (s.fields bp.code_object)
          { data with breakpoints :=
              data.breakpoints.filter (fun e => ¬ e.2.cookie = k) }).2.zombie_refs
            = 0) := by
        rintro ⟨-, h2⟩
        rw [patchCodeObject_snd] at h2
        exact absurd h2 (by simp)
      rw [if_neg hzr]
      exact regInv_repatch env s inv bp.code_object data hpc _
        (List.Pairwise.filter _ (inv.sorted (bp.code_object, data)
          (lookup_mem _ _ _ hpc))) _ _

theorem regInv_applyRegOp (env : Nat → CodeFields) (s : RegistryState)
    (inv : RegInv env s) (op : RegOp) : RegInv env (applyRegOp s op) := by
  cases op with
  | set c line cb => exact regInv_set env s inv c line cb
  | clear k => exact regInv_clear env s inv k

theorem regInv_foldl (env : Nat → CodeFields) :
    ∀ (ops : List RegOp) (s : RegistryState), RegInv env s →
      RegInv env (ops.foldl applyRegOp s) := by
  intro ops
  induction ops with
  | nil => intro s inv; exact inv
  | cons op rest ih =>
      intro s inv
      rw [List.foldl_cons]
      exact ih (applyRegOp s op) (regInv_applyRegOp env s inv op)

theorem regInv_run (env : Nat → CodeFields) (ops : List RegOp) :
    RegInv env (runRegistry env ops) :=
  regInv_foldl env ops (initState env) (regInv_init env)

theorem regInv_detach (env : Nat → CodeFields) (s : RegistryState)
    (inv : RegInv env s) : ∀ x, (Detach s).fields x = env x := by
  intro x
  show s.patches.foldl restoreEntry s.fields x = env x
  rw [detach_fold env s.patches s.fields inv.flno inv.orig x]
  by_cases hx : x ∈ s.patches.map Prod.fst
  · rw [if_pos hx]
  · rw [if_neg hx]
    exact inv.untouched x (lookup_none_of_not_mem_keys _ _ hx)

/-- C1: for every sequence of create/activate/clear operations on the
breakpoint registry, calling Detach restores every code object's bytecode,
constants, line table and stack size to the values it had before the
registry first touched it (the originals captured before the first
mutation). -/
theorem C1_detach_restores (env : Nat → CodeFields) (ops : List RegOp)
    (c : Nat) :
    ((Detach (runRegistry env ops)).fields c).co_code = (env c).co_code ∧
    ((Detach (runRegistry env ops)).fields c).co_consts = (env c).co_consts ∧
    ((Detach (runRegistry env ops)).fields c).co_lnotab = (env c).co_lnotab ∧
    ((Detach (runRegistry env ops)).fields c).co_stacksize =
      (env c).co_stacksize := by
  have h := regInv_detach env (runRegistry env ops) (regInv_run env ops) c
  exact ⟨by rw [h], by rw [h], by rw [h], by rw [h]⟩

/-- C6: for every code object patched with at least one breakpoint, the
constants installed by the re-patch are the original constants followed by
exactly one hit callable per currently registered breakpoint, in the order
of the breakpoint multimap, and that multimap is sorted by descending
offset. -/
theorem C6_patched_consts (env : Nat → CodeFields) (ops : List RegOp)
    (c : Nat) (data : CodeObjectBreakpoints)
    (hl : (runRegistry env ops).patches.lookup c = some data)
    (hne : data.breakpoints ≠ []) :
    ((runRegistry env ops).fields c).co_consts =
      (env c).co_consts ++ data.breakpoints.map (fun e => e.2.hit_callable) ∧
    data.breakpoints.Pairwise (fun a b => b.1 ≤ a.1) := by
  have inv : RegInv env (runRegistry env ops) := regInv_run env ops
  have h1 := inv.patched c data hl hne
  have h2 := (inv.orig (c, data) (lookup_mem _ _ _ hl)).2.1
  exact ⟨by rw [h1]; rw [show data.original_consts = (env c).co_consts from h2],
    inv.sorted (c, data) (lookup_mem _ _ _ hl)⟩

/-- Environment with a single code object: LOAD_CONST 0 then RETURN_VALUE,
one constant, empty line table, first line 3. -/
def sampleEnv : Nat → CodeFields := fun _ =>
  { co_code := [100, 0, 0, 83], co_consts := [5], co_lnotab := [],
    co_stacksize := 2, co_firstlineno := 3 }

/-- The breakpoint registered by setting line 3 of the sample code
object. -/
def sampleBp : Breakpoint :=
  { code_object := 0, offset := 0, hit_callable := 77, cookie := 1000000 }

/-- Patch record produced by setting one breakpoint at line 3 of the sample
code object. -/
def sampleData : CodeObjectBreakpoints :=
  { code_object := 0, breakpoints := [(0, sampleBp)], zombie_refs := 3,
    original_stacksize := 2, original_consts := [5],
    original_code := [100, 0, 0, 83], original_lnotab := [] }

theorem C6_witness :
    (runRegistry sampleEnv [RegOp.set 0 3 77]).patches.lookup 0 =
      some sampleData ∧
    sampleData.breakpoints ≠ [] ∧
    (((runRegistry sampleEnv [RegOp.set 0 3 77]).fields 0).co_consts =
        (sampleEnv 0).co_consts ++
          sampleData.breakpoints.map (fun e => e.2.hit_callable) ∧
      sampleData.breakpoints.Pairwise (fun a b => b.1 ≤ a.1)) :=
  ⟨by decide, by decide,
    C6_patched_consts sampleEnv [RegOp.set 0 3 77] 0 sampleData (by decide)
      (by decide)⟩

end Bp

end Cdbg
